import Mathlib

/-!
# Booster init: module loading (`init/module.go`)

A shallow embedding of the module-loading code of the booster init process:

* the alias table (`readAliases`, `matchAlias`), with `path.Match` of the Go standard
  library as the glob matcher;
* the module registry (`loadedModules`, `loadingModules`, the `sync.WaitGroup` counters)
  with `loadModuleUnlocked` / `loadModules` and the load goroutine they spawn, given as an
  interleaving step model: a call of `loadModules` is one atomic step (it runs with
  `modulesMutex` held), a goroutine takes three steps (its wait returns and `finitModule` is
  entered, `finitModule` returns, the completion section runs under the mutex).

The definitions of the program and of the notions used to state its properties come first;
the lemmas and the theorems on the claims follow.
-/

namespace Booster

/-! ## Alias table -/

/-- Go: `type alias struct{ pattern, module string }`. -/
structure Alias where
  pattern : String
  module : String
deriving DecidableEq, Repr

/-- Go's `strings.Split(line, " ")` on the characters of a line: cut at every single space.
The result always has at least one field (`strings.Split("", " ")` is `[""]`). -/
def splitSpace : List Char → List (List Char)
  | [] => [[]]
  | c :: cs =>
    if c = ' ' then [] :: splitSpace cs
    else
      match splitSpace cs with
      | [] => [[c]]
      | f :: fs => (c :: f) :: fs

/-- Outcome of `readAliases`: it returns (with the table it has built and the `error` value,
`none` for `nil`), or the process aborts with an index-out-of-range run-time panic. -/
inductive ReadOutcome (E : Type) where
  | returned (aliases : List Alias) (err : Option E)
  | panicked
deriving DecidableEq, Repr

/-- The body of the `for s.Scan()` loop of `readAliases`, over the lines the scanner yields:
`parts := strings.Split(line, " ")` and `aliases = append(aliases, alias{parts[0], parts[1]})`.
`none` is the run-time panic of an index expression out of range. -/
def readAliasesLoop : List String → List Alias → Option (List Alias)
  | [], aliases => some aliases
  | line :: rest, aliases =>
    match splitSpace line.toList with
    | p0 :: p1 :: _ => readAliasesLoop rest (aliases ++ [⟨String.mk p0, String.mk p1⟩])
    | _ => none

/-- Go: `readAliases`. `file` is what `os.Open` gives: an error, or the file, seen as the
lines the scanner yields and the scanner's final error `s.Err()`. `aliases` is the global
table before the call. -/
def readAliases {E : Type} (file : Except E (List String × Option E)) (aliases : List Alias) :
    ReadOutcome E :=
  match file with
  | .error e => .returned aliases (some e)
  | .ok (lines, scanErr) =>
    match readAliasesLoop lines aliases with
    | some table => .returned table scanErr
    | none => .panicked

/-- The loop of `matchAlias` over the remaining table entries, `result` being the Go
variable of that name. `pm` stands for `path.Match`, returning `(matched, err)` as an
`Except`. On a match error the function returns `nil, err`. -/
def matchAliasLoop {E : Type} (pm : String → String → Except E Bool) (ident : String) :
    List Alias → List String → List String × Option E
  | [], result => (result, none)
  | a :: rest, result =>
    match pm a.pattern ident with
    | .error e => ([], some e)
    | .ok true => matchAliasLoop pm ident rest (result ++ [a.module])
    | .ok false => matchAliasLoop pm ident rest result

/-- Go: `matchAlias(alias string) ([]string, error)` over the global table `aliases`;
the nil slice is the empty list. -/
def matchAlias {E : Type} (pm : String → String → Except E Bool) (aliases : List Alias)
    (ident : String) : List String × Option E :=
  matchAliasLoop pm ident aliases []

/-! ## Glob matching -/

/-- Go: `path.ErrBadPattern`, the only error `path.Match` returns. -/
inductive PatternError where
  | ErrBadPattern
deriving DecidableEq, Repr

deriving instance DecidableEq for Except

/-- Go `path`: the leading stars of a pattern in `scanChunk`: whether there was one, and
the pattern without them. -/
def scanStars : List Char → Bool × List Char
  | [] => (false, [])
  | c :: p => if c = '*' then (true, (scanStars p).2) else (false, c :: p)

/-- Go `path`: the `Scan` loop of `scanChunk`: the chunk up to the next star outside a
character class, and the rest of the pattern. -/
def scanLoop : List Char → Bool → List Char × List Char
  | [], _ => ([], [])
  | c :: p, inrange =>
    if c = '\\' then
      match p with
      | [] => ([c], [])
      | d :: q => (c :: d :: (scanLoop q inrange).1, (scanLoop q inrange).2)
    else if c = '[' then (c :: (scanLoop p true).1, (scanLoop p true).2)
    else if c = ']' then (c :: (scanLoop p false).1, (scanLoop p false).2)
    else if c = '*' ∧ inrange = false then ([], c :: p)
    else (c :: (scanLoop p inrange).1, (scanLoop p inrange).2)

/-- Go `path`: `getEsc`, one possibly escaped character of a character class and the rest
of the chunk; `none` is `ErrBadPattern`. -/
def getEsc : List Char → Option (Char × List Char)
  | [] => none
  | c :: rest =>
    if c = '-' ∨ c = ']' then none
    else if c = '\\' then
      match rest with
      | [] => none
      | d :: rest1 => if rest1 = [] then none else some (d, rest1)
    else if rest = [] then none else some (c, rest)

/-- Go `path`: the loop of `matchChunk` that parses the ranges of a character class
against the character `r` (its code point): whether a range matched, and the chunk after
the closing bracket; `none` is `ErrBadPattern`. The fuel bounds the chunk length. -/
def classLoop : Nat → List Char → Nat → Bool → Bool → Option (Bool × List Char)
  | 0, _, _, _, _ => none
  | fuel + 1, chunk, r, matched, seen =>
    if chunk.head? = some ']' ∧ seen = true then some (matched, chunk.tail)
    else
      match getEsc chunk with
      | none => none
      | some (lo, chunk1) =>
        if chunk1.head? = some '-' then
          match getEsc chunk1.tail with
          | none => none
          | some (hi, chunk2) =>
            classLoop fuel chunk2 r (matched || decide (lo.toNat ≤ r ∧ r ≤ hi.toNat)) true
        else classLoop fuel chunk1 r (matched || decide (lo.toNat ≤ r ∧ r ≤ lo.toNat)) true

/-- Go `path`: `matchChunk(chunk, s)`, with the flag `failed` of its loop: `some rest` when
the chunk matches a beginning of `s`, `none` when it does not; a malformed chunk is an
error also after the match has failed. The fuel bounds the chunk length. -/
def matchChunk : Nat → List Char → List Char → Bool → Except PatternError (Option (List Char))
  | 0, _, _, _ => .error .ErrBadPattern
  | _ + 1, [], s, failed => .ok (if failed then none else some s)
  | fuel + 1, c :: chunk, s, failed0 =>
    let failed := failed0 || s.isEmpty
    let s1 := if failed then s else s.tail
    if c = '[' then
      let r : Nat := if failed then 0 else (s.head?.map Char.toNat).getD 0
      let negated := decide (chunk.head? = some '^')
      let chunk1 := if negated then chunk.tail else chunk
      match classLoop fuel chunk1 r false false with
      | none => .error .ErrBadPattern
      | some (matched, chunk2) => matchChunk fuel chunk2 s1 (failed || (matched == negated))
    else if c = '?' then
      matchChunk fuel chunk s1 (failed || decide (s.head? = some '/'))
    else if c = '\\' then
      match chunk with
      | [] => .error .ErrBadPattern
      | d :: chunk1 => matchChunk fuel chunk1 s1 (failed || decide (s.head? ≠ some d))
    else matchChunk fuel chunk s1 (failed || decide (s.head? ≠ some c))

/-- Go `path`: the loop of `Match` taken after a star: try the chunk after skipping
`i+1` characters of the name, never skipping a slash. `some t` is `continue Pattern` with
`name = t`. -/
def starLoop (chunk : List Char) (lastChunk : Bool) :
    List Char → Except PatternError (Option (List Char))
  | [] => .ok none
  | c :: name1 =>
    if c = '/' then .ok none
    else
      match matchChunk (chunk.length + 1) chunk name1 false with
      | .error e => .error e
      | .ok (some t) => if lastChunk ∧ t ≠ [] then starLoop chunk lastChunk name1 else .ok (some t)
      | .ok none => starLoop chunk lastChunk name1

/-- Go `path`: the last loop of `Match`: before returning false, check that the rest of the
pattern is well formed. -/
def validateRest : Nat → List Char → Except PatternError Unit
  | 0, _ => .ok ()
  | _ + 1, [] => .ok ()
  | fuel + 1, pattern =>
    let p1 := (scanStars pattern).2
    let chunk := (scanLoop p1 false).1
    match matchChunk (chunk.length + 1) chunk [] false with
    | .error e => .error e
    | .ok _ => validateRest fuel (scanLoop p1 false).2

/-- Go `path`: the `Pattern` loop of `Match`. The fuel bounds the pattern length. -/
def matchLoop : Nat → List Char → List Char → Except PatternError Bool
  | 0, _, _ => .error .ErrBadPattern
  | _ + 1, [], name => .ok name.isEmpty
  | fuel + 1, pattern, name =>
    let star := (scanStars pattern).1
    let p1 := (scanStars pattern).2
    let chunk := (scanLoop p1 false).1
    let rest := (scanLoop p1 false).2
    if star = true ∧ chunk = [] then .ok (decide ('/' ∉ name))
    else
      match matchChunk (chunk.length + 1) chunk name false with
      | .error e => .error e
      | .ok r =>
        match (match r with
               | some t => if t = [] ∨ rest ≠ [] then some t else none
               | none => none) with
        | some t => matchLoop fuel rest t
        | none =>
          match (if star then starLoop chunk (decide (rest = [])) name else .ok none) with
          | .error e => .error e
          | .ok (some t) => matchLoop fuel rest t
          | .ok none =>
            match validateRest rest.length rest with
            | .error e => .error e
            | .ok _ => .ok false

/-- Modelled from the spec: the glob matcher `path.Match(pattern, name)` that `matchAlias`
calls is Go's standard library, not a file of this repository. This follows the library's
algorithm (`Match`, `scanChunk`, `matchChunk`, `getEsc`) on the characters of the two
strings. -/
def pathMatch (pattern name : String) : Except PatternError Bool :=
  matchLoop (pattern.length + 1) pattern.toList name.toList

/-! ### Notions and examples for the alias table -/

/-- Whether the pattern of a table entry matches the identifier: `path.Match` returned
`true` without error. -/
def aliasMatches {E : Type} (pm : String → String → Except E Bool) (ident : String)
    (a : Alias) : Bool :=
  match pm a.pattern ident with
  | .ok true => true
  | _ => false

/-- Whether `path.Match` reports an error (a malformed pattern) for a table entry and the
identifier. -/
def reportsError {E : Type} (pm : String → String → Except E Bool) (ident : String)
    (a : Alias) : Bool :=
  match pm a.pattern ident with
  | .error _ => true
  | .ok _ => false

/-- The entry `readAliases` appends for a line: `alias{parts[0], parts[1]}`, for a line
with at least two fields. -/
def aliasOfLine (line : String) : Alias :=
  { pattern := String.mk ((splitSpace line.toList).getD 0 [])
    module := String.mk ((splitSpace line.toList).getD 1 []) }

/-- The line of a two-field record: the pattern, one space, the module name. -/
def recordLine (r : List Char × List Char) : String :=
  String.mk (r.1 ++ ' ' :: r.2)

/-- The alias table of the spec's example. -/
def exampleAliases : List Alias :=
  [{ pattern := "usb:v1234*", module := "usbmod" },
   { pattern := "usb:*", module := "genericusb" }]

/-- A table in which two entries name the same module. -/
def duplicateAliases : List Alias :=
  [{ pattern := "usb:*", module := "usbcore" },
   { pattern := "usb:v1234*", module := "usbcore" }]

/-- A table whose second entry has a malformed pattern (an unclosed character class). -/
def malformedAliases : List Alias :=
  [{ pattern := "usb:*", module := "genericusb" },
   { pattern := "usb:[", module := "broken" }]

/-! ## Module registry -/

/-- A `*sync.WaitGroup`: wait groups are allocated from a counter, the number is the
pointer's identity. -/
abbrev WgId := Nat

/-- Go: `InitConfig`, of which module loading reads `ModuleDependencies`
(`map[string][]string`, here an association list read with `List.lookup`). -/
structure InitConfig where
  ModuleDependencies : List (String × List String)

/-- Where the goroutine spawned for a module stands: blocked in `depsWg.Wait()`, inside
`finitModule`, past `finitModule` without error and about to take `modulesMutex`, returned
after a `finitModule` error, or returned after the completion section. -/
inductive Phase where
  | waiting
  | inserting
  | inserted
  | failed
  | finished
deriving DecidableEq, Repr

/-- The goroutine `go func() ...` of `loadModuleUnlocked`: its captured `mod` and `depsWg`. -/
structure Task where
  mod : String
  depsWg : WgId
  phase : Phase
deriving DecidableEq, Repr

/-- What the history records, newest event first in `Registry.log`. -/
inductive Event where
  | spawned (m : String)
  | began (m : String)
  | finitOk (m : String)
  | finitErr (m : String)
  | completed (m : String)
deriving DecidableEq, Repr

/-- The globals `loadedModules` (its key set) and `loadingModules`, the counters of all wait
groups, the goroutines spawned so far and the history of events. A counter is an integer as
in Go, where a negative counter is a panic; `Inv.counter_eq` shows that a counter is the
number of attachments of its wait group, so never negative. -/
structure Registry where
  loadedModules : List String
  loadingModules : List (String × List WgId)
  counter : WgId → Int
  nextWg : WgId
  tasks : List Task
  log : List Event

/-- The state at process start: both maps empty, no goroutine. -/
def Registry.init : Registry :=
  { loadedModules := [], loadingModules := [], counter := fun _ => 0, nextWg := 0,
    tasks := [], log := [] }

/-- Go: the map read `loadingModules[m]` (nil for a missing key). -/
def waiters (l : List (String × List WgId)) (m : String) : List WgId :=
  (l.lookup m).getD []

/-- Go: the map assignment `loadingModules[m] = ws`. -/
def setEntry : List (String × List WgId) → String → List WgId → List (String × List WgId)
  | [], m, ws => [(m, ws)]
  | (k, v) :: r, m, ws => if k = m then (k, ws) :: r else (k, v) :: setEntry r m ws

/-- Go: `delete(loadingModules, m)`. -/
def deleteEntry (l : List (String × List WgId)) (m : String) : List (String × List WgId) :=
  l.filter (fun e => e.1 ≠ m)

/-- Go: `w.Add(d)` on the counter of wait group `w`. -/
def wgAdd (c : WgId → Int) (w : WgId) (d : Int) : WgId → Int :=
  fun x => if x = w then c x + d else c x

/-- Go: `for _, w := range ws { w.Done() }`. -/
def wgDoneAll (c : WgId → Int) (ws : List WgId) : WgId → Int :=
  ws.foldl (fun c w => wgAdd c w (-1)) c

/-- Go: `wg.Add(1); loadingModules[module] = append(loadingModules[module], wg)`. -/
def attach (s : Registry) (module : String) (wg : WgId) : Registry :=
  { s with
    counter := wgAdd s.counter wg 1
    loadingModules :=
      setEntry s.loadingModules module (waiters s.loadingModules module ++ [wg]) }

/-- Go: `var depsWg sync.WaitGroup`: a new wait group, counter zero; its identity is the
value of `nextWg` before the call. -/
def newWaitGroup (s : Registry) : Registry :=
  { s with
    nextWg := s.nextWg + 1
    counter := fun x => if x = s.nextWg then 0 else s.counter x }

/-- Go: the `go func() ...` statement: one more goroutine, blocked on `depsWg`. -/
def spawn (s : Registry) (module : String) (depsWg : WgId) : Registry :=
  { s with
    tasks := s.tasks ++ [{ mod := module, depsWg := depsWg, phase := Phase.waiting }]
    log := Event.spawned module :: s.log }

/-- One iteration of the `for _, module := range modules` loop of `loadModuleUnlocked`;
`recur` is the recursive call `loadModuleUnlocked(&depsWg, deps...)`. -/
def loadModuleIter (cfg : InitConfig)
    (recur : WgId → List String → Registry → Option Registry)
    (wg : WgId) (s : Registry) (module : String) : Option Registry :=
  if module ∈ s.loadedModules then some s
  else
    let alreadyLoading := (s.loadingModules.lookup module).isSome
    let s1 := attach s module wg
    if alreadyLoading then some s1
    else
      let depsWg := s1.nextWg
      let s2 := newWaitGroup s1
      let afterDeps :=
        match cfg.ModuleDependencies.lookup module with
        | some deps => recur depsWg deps s2
        | none => some s2
      afterDeps.map (fun s3 => spawn s3 module depsWg)

/-- Go: `loadModuleUnlocked(wg, modules...)`, with `modulesMutex` held. `fuel` bounds the
depth of the recursion; `none` means the fuel ran out. -/
def loadModuleUnlocked (cfg : InitConfig) :
    Nat → WgId → List String → Registry → Option Registry
  | 0, _, _, _ => none
  | fuel + 1, wg, modules, s =>
    modules.foldlM (loadModuleIter cfg (loadModuleUnlocked cfg fuel) wg) s

/-- Every module name occurring in the request or in the dependency map. -/
def moduleNames (cfg : InitConfig) (modules : List String) : List String :=
  modules ++ cfg.ModuleDependencies.flatMap (fun e => e.1 :: e.2)

/-- Go: `loadModules(modules...)`: lock, a new wait group `wg`, `loadModuleUnlocked`,
unlock, return `&wg`. The recursion depth never exceeds the number of module names, which
is the fuel given. -/
def loadModules (cfg : InitConfig) (modules : List String) (s : Registry) :
    Option (WgId × Registry) :=
  (loadModuleUnlocked cfg ((moduleNames cfg modules).length + 1) s.nextWg modules
    (newWaitGroup s)).map (fun s1 => (s.nextWg, s1))

/-- Replace the phase of goroutine `i`. -/
def setPhase : List Task → Nat → Phase → List Task
  | [], _, _ => []
  | t :: ts, 0, p => { t with phase := p } :: ts
  | t :: ts, i + 1, p => t :: setPhase ts i p

/-- Goroutine `i`: `depsWg.Wait()` returns (the counter is zero) and `finitModule(mod)`
is entered. -/
def taskBegin (i : Nat) (s : Registry) : Option Registry :=
  match s.tasks[i]? with
  | some t =>
    if t.phase = Phase.waiting ∧ s.counter t.depsWg = 0 then
      some { s with tasks := setPhase s.tasks i Phase.inserting, log := Event.began t.mod :: s.log }
    else none
  | none => none

/-- Goroutine `i`: `finitModule(mod)` returns, with `nil` (`ok`) or with an error, in
which case the goroutine prints the error and returns. -/
def taskFinit (i : Nat) (ok : Bool) (s : Registry) : Option Registry :=
  match s.tasks[i]? with
  | some t =>
    if t.phase = Phase.inserting then
      if ok then
        some { s with tasks := setPhase s.tasks i Phase.inserted, log := Event.finitOk t.mod :: s.log }
      else
        some { s with tasks := setPhase s.tasks i Phase.failed, log := Event.finitErr t.mod :: s.log }
    else none
  | none => none

/-- Goroutine `i` after a successful `finitModule`: with `modulesMutex` held, signal every
waiter, `delete(loadingModules, mod)`, `loadedModules[mod] = true`. The section is one step:
it runs under the mutex, so no `loadModules` call and no other completion can interleave;
a goroutine whose `Wait` returns while the section still runs goes on to `finitModule`,
which does not read the registry, and is taken to enter it after this step. -/
def taskComplete (i : Nat) (s : Registry) : Option Registry :=
  match s.tasks[i]? with
  | some t =>
    if t.phase = Phase.inserted then
      some { s with
        counter := wgDoneAll s.counter (waiters s.loadingModules t.mod)
        loadingModules := deleteEntry s.loadingModules t.mod
        loadedModules := t.mod :: s.loadedModules
        tasks := setPhase s.tasks i Phase.finished
        log := Event.completed t.mod :: s.log }
    else none
  | none => none

/-- The atomic steps of the system: a call of `loadModules` (atomic under the mutex), and
the three steps of a load goroutine. -/
inductive Action where
  | request (modules : List String)
  | begin (i : Nat)
  | finit (i : Nat) (ok : Bool)
  | complete (i : Nat)
deriving DecidableEq, Repr

/-- One step; `none` when the action is not enabled. -/
def step (cfg : InitConfig) (a : Action) (s : Registry) : Option Registry :=
  match a with
  | .request modules => (loadModules cfg modules s).map (fun r => r.2)
  | .begin i => taskBegin i s
  | .finit i ok => taskFinit i ok s
  | .complete i => taskComplete i s

/-- A sequence of steps. -/
def run (cfg : InitConfig) (acts : List Action) (s : Registry) : Option Registry :=
  acts.foldlM (fun s a => step cfg a s) s

/-- The state `t` is reached from `s` by some sequence of steps. -/
def Later (cfg : InitConfig) (s t : Registry) : Prop :=
  ∃ acts, run cfg acts s = some t

/-- The state is reached from the initial state. -/
def Reachable (cfg : InitConfig) (s : Registry) : Prop :=
  Later cfg Registry.init s

/-- The direct prerequisites of a module: `config.ModuleDependencies[m]`. -/
def depsOf (cfg : InitConfig) (m : String) : List String :=
  (cfg.ModuleDependencies.lookup m).getD []

/-- The module `p` is a transitive prerequisite of `m`. -/
def Prereq (cfg : InitConfig) (m p : String) : Prop :=
  Relation.TransGen (fun a b => b ∈ depsOf cfg a) m p

/-! ### Notions used to state and prove the properties of the registry -/

/-- The number of times wait group `w` is attached, over all entries of `loadingModules`. -/
def occ (w : WgId) (l : List (String × List WgId)) : Nat :=
  (l.map (fun e => e.2.count w)).sum

/-- The key set of `loadingModules`. -/
def keys (l : List (String × List WgId)) : List String :=
  l.map Prod.fst

/-- In the history, whenever `finitModule(M)` was entered, the completion of every
transitive prerequisite of `M` is older. The log is newest first. -/
def Ordered (cfg : InitConfig) (log : List Event) : Prop :=
  ∀ post pre M, log = post ++ Event.began M :: pre →
    ∀ P, Prereq cfg M P →
      Event.began P ∈ pre ∧ Event.finitOk P ∈ pre ∧ Event.completed P ∈ pre

/-- The invariant kept by every step, also inside `loadModuleUnlocked`. -/
structure Inv (cfg : InitConfig) (s : Registry) : Prop where
  counter_eq : ∀ w, s.counter w = (occ w s.loadingModules : Int)
  fresh : ∀ w, s.nextWg ≤ w → occ w s.loadingModules = 0
  nodupKeys : (keys s.loadingModules).Nodup
  disjoint : ∀ m, m ∈ s.loadedModules → m ∉ keys s.loadingModules
  waitingDeps : ∀ t ∈ s.tasks, t.phase = Phase.waiting → ∀ d ∈ depsOf cfg t.mod,
    d ∈ s.loadedModules ∨ t.depsWg ∈ waiters s.loadingModules d
  startedDeps : ∀ t ∈ s.tasks, t.phase ≠ Phase.waiting → ∀ d ∈ depsOf cfg t.mod,
    d ∈ s.loadedModules
  insertedLog : ∀ t ∈ s.tasks, t.phase = Phase.inserted →
    Event.began t.mod ∈ s.log ∧ Event.finitOk t.mod ∈ s.log
  insertingLog : ∀ t ∈ s.tasks, t.phase = Phase.inserting → Event.began t.mod ∈ s.log
  loadedClosed : ∀ m ∈ s.loadedModules, ∀ d ∈ depsOf cfg m, d ∈ s.loadedModules
  loadedLog : ∀ m ∈ s.loadedModules,
    Event.began m ∈ s.log ∧ Event.finitOk m ∈ s.log ∧ Event.completed m ∈ s.log
  ordered : Ordered cfg s.log
  completedLoaded : ∀ m, Event.completed m ∈ s.log → m ∈ s.loadedModules
  spawnedOnce : ∀ m, s.log.count (Event.spawned m) ≤ 1
  spawnedKnown : ∀ m, Event.spawned m ∈ s.log →
    m ∈ s.loadedModules ∨ m ∈ keys s.loadingModules
  tasksLog : ∀ m, s.tasks.countP (fun t => t.mod = m) = s.log.count (Event.spawned m)

/-- What a call of `loadModuleUnlocked` leaves alone or only extends. -/
structure Grows (s t : Registry) : Prop where
  loaded_eq : t.loadedModules = s.loadedModules
  nextWg_le : s.nextWg ≤ t.nextWg
  keys_mono : ∀ m, m ∈ keys s.loadingModules → m ∈ keys t.loadingModules
  waiters_mono : ∀ m w, w ∈ waiters s.loadingModules m → w ∈ waiters t.loadingModules m
  spawn_frame : ∀ m, m ∈ s.loadedModules ∨ m ∈ keys s.loadingModules →
    t.log.count (Event.spawned m) = s.log.count (Event.spawned m)
  tasks_new : ∀ x ∈ t.tasks, x ∈ s.tasks ∨
    (x.phase = Phase.waiting ∧ x.mod ∉ s.loadedModules ∧ x.mod ∉ keys s.loadingModules)
  log_new : ∀ e ∈ t.log, e ∈ s.log ∨ ∃ m, e = Event.spawned m

/-- The module names of `U` that are in neither `loadedModules` nor `loadingModules`. -/
def unknown (U : List String) (s : Registry) : Finset String :=
  U.toFinset.filter (fun u => u ∉ s.loadedModules ∧ u ∉ keys s.loadingModules)

/-- The modules of `S` hang in state `s`: each is in `loadingModules`, and every goroutine
for one of them has returned after a `finitModule` error or waits on a wait group that is
attached to a module of `S`. -/
structure Stuck (S : List String) (s : Registry) : Prop where
  inLoading : ∀ m ∈ S, m ∈ keys s.loadingModules
  blocked : ∀ x ∈ s.tasks, x.mod ∈ S → x.phase = Phase.failed ∨
    (x.phase = Phase.waiting ∧ ∃ d ∈ S, x.depsWg ∈ waiters s.loadingModules d)

/-- The wait group `wg` is attached to every module of `names` that is not loaded. -/
def Covered (names : List String) (wg : WgId) (s : Registry) : Prop :=
  ∀ n ∈ names, n ∈ s.loadedModules ∨ wg ∈ waiters s.loadingModules n

/-- What is kept from `s` on while the modules of `S` hang. -/
structure StuckSince (cfg : InitConfig) (S : List String) (s u : Registry) : Prop where
  inv : Inv cfg u
  stuck : Stuck S u
  waiters_kept : ∀ m ∈ S, ∀ w, w ∈ waiters s.loadingModules m → w ∈ waiters u.loadingModules m
  began_old : ∀ m ∈ S, Event.began m ∈ u.log → Event.began m ∈ s.log

/-! ### Example configurations and runs -/

/-- The state after the given steps from process start (the initial state if some step
is not enabled). -/
def stateAfter (cfg : InitConfig) (acts : List Action) : Registry :=
  (run cfg acts Registry.init).getD Registry.init

/-- No dependencies at all. -/
def plainConfig : InitConfig :=
  { ModuleDependencies := [] }

/-- The chain `A -> B -> C`. -/
def chainConfig : InitConfig :=
  { ModuleDependencies := [("A", ["B"]), ("B", ["C"])] }

/-- The cyclic map `A: [B], B: [A]`. -/
def cyclicConfig : InitConfig :=
  { ModuleDependencies := [("A", ["B"]), ("B", ["A"])] }

/-- The chain is requested through `A` (the goroutines are spawned in the order `C`, `B`,
`A`), `C` loads, and the goroutine of `B` enters `finitModule`. -/
def chainRun : List Action :=
  [Action.request ["A"],
   Action.begin 0, Action.finit 0 true, Action.complete 0,
   Action.begin 1]

/-- One dependency: `A` needs `B`. -/
def pairConfig : InitConfig :=
  { ModuleDependencies := [("A", ["B"])] }

/-- `A` is requested and everything loads: `B`, then `A`. -/
def pairRun : List Action :=
  [Action.request ["A"],
   Action.begin 0, Action.finit 0 true, Action.complete 0,
   Action.begin 1, Action.finit 1 true, Action.complete 1]

/-- Module `m` is requested, its goroutine enters `finitModule`, which fails. -/
def failingRun : List Action :=
  [Action.request ["m"], Action.begin 0, Action.finit 0 false]

/-! # Theorems -/

/-! ### The map operations -/

theorem lookup_isSome_iff (l : List (String × List WgId)) (m : String) :
    (l.lookup m).isSome = true ↔ m ∈ keys l := by
  induction l with
  | nil => simp [keys]
  | cons e r ih =>
    obtain ⟨k, v⟩ := e
    by_cases h : m = k
    · subst h; simp [List.lookup, keys]
    · have h2 : (m == k) = false := by simpa using h
      simp [List.lookup, h2, keys, h] at ih ⊢

theorem lookup_eq_none_iff (l : List (String × List WgId)) (m : String) :
    l.lookup m = none ↔ m ∉ keys l := by
  rw [← lookup_isSome_iff]
  cases l.lookup m <;> simp

theorem waiters_nil (m : String) : waiters [] m = [] := rfl

theorem waiters_cons (k : String) (v : List WgId) (r : List (String × List WgId)) (m : String) :
    waiters ((k, v) :: r) m = if m = k then v else waiters r m := by
  by_cases h : m = k
  · subst h; simp [waiters, List.lookup]
  · have h2 : (m == k) = false := by simpa using h
    simp [waiters, List.lookup, h2, h]

theorem waiters_setEntry (l : List (String × List WgId)) (m : String) (ws : List WgId)
    (k : String) : waiters (setEntry l m ws) k = if k = m then ws else waiters l k := by
  induction l with
  | nil => simp [setEntry, waiters_cons, waiters_nil]
  | cons e r ih =>
    obtain ⟨a, v⟩ := e
    by_cases h : a = m
    · subst h
      simp only [setEntry, if_true, waiters_cons]
      by_cases h1 : k = a <;> simp [h1]
    · simp only [setEntry, h, if_false, waiters_cons, ih]
      by_cases h1 : k = a
      · subst h1; simp [h]
      · simp [h1]

theorem mem_keys_setEntry (l : List (String × List WgId)) (m : String) (ws : List WgId)
    (k : String) : k ∈ keys (setEntry l m ws) ↔ k = m ∨ k ∈ keys l := by
  induction l with
  | nil => simp [setEntry, keys]
  | cons e r ih =>
    obtain ⟨a, v⟩ := e
    by_cases h : a = m
    · subst h; simp [setEntry, keys]
    · simp only [keys] at ih
      simp only [setEntry, h, if_false, keys, List.map_cons, List.mem_cons, ih]
      tauto

theorem nodup_keys_setEntry (l : List (String × List WgId)) (m : String) (ws : List WgId)
    (h : (keys l).Nodup) : (keys (setEntry l m ws)).Nodup := by
  induction l with
  | nil => simp [setEntry, keys]
  | cons e r ih =>
    obtain ⟨a, v⟩ := e
    simp only [keys, List.map_cons, List.nodup_cons] at h
    by_cases h1 : a = m
    · subst h1; simpa [setEntry, keys] using h
    · have h3 := mem_keys_setEntry r m ws a
      simp only [keys] at ih h3
      simp only [setEntry, h1, if_false, keys, List.map_cons, List.nodup_cons, h3]
      exact ⟨by tauto, ih h.2⟩

theorem occ_nil (w : WgId) : occ w [] = 0 := rfl

theorem occ_cons (w : WgId) (k : String) (v : List WgId) (r : List (String × List WgId)) :
    occ w ((k, v) :: r) = v.count w + occ w r := by
  simp [occ]

theorem occ_setEntry (l : List (String × List WgId)) (m : String) (ws : List WgId)
    (w : WgId) :
    occ w (setEntry l m ws) + (waiters l m).count w = occ w l + ws.count w := by
  induction l with
  | nil => simp [setEntry, occ_cons, occ_nil, waiters_nil]
  | cons e r ih =>
    obtain ⟨a, v⟩ := e
    by_cases h : a = m
    · subst h
      simp only [setEntry, if_true, occ_cons, waiters_cons]
      omega
    · have h2 : ¬ m = a := fun h3 => h h3.symm
      simp only [setEntry, h, if_false, occ_cons, waiters_cons, h2]
      omega

theorem count_waiters_le_occ (l : List (String × List WgId)) (m : String) (w : WgId) :
    (waiters l m).count w ≤ occ w l := by
  induction l with
  | nil => simp [waiters_nil]
  | cons e r ih =>
    obtain ⟨a, v⟩ := e
    by_cases h : m = a
    · simp [waiters_cons, occ_cons, h]
    · simp only [waiters_cons, h, if_false, occ_cons]
      omega

theorem occ_pos_of_mem_waiters (l : List (String × List WgId)) (m : String) (w : WgId)
    (h : w ∈ waiters l m) : 0 < occ w l :=
  lt_of_lt_of_le (List.count_pos_iff.mpr h) (count_waiters_le_occ l m w)

theorem mem_keys_deleteEntry (l : List (String × List WgId)) (m k : String) :
    k ∈ keys (deleteEntry l m) ↔ k ≠ m ∧ k ∈ keys l := by
  induction l with
  | nil => simp [deleteEntry, keys]
  | cons e r ih =>
    obtain ⟨a, v⟩ := e
    simp only [deleteEntry, keys] at ih
    by_cases h : a = m
    · subst h
      simp only [deleteEntry, keys, List.filter_cons, ne_eq, not_true_eq_false, decide_False,
        Bool.false_eq_true, if_false, ih, List.map_cons, List.mem_cons]
      tauto
    · simp only [deleteEntry, keys, List.filter_cons, ne_eq, h, not_false_eq_true, decide_True,
        if_true, List.map_cons, List.mem_cons, ih]
      constructor
      · rintro (h1 | h1)
        · subst h1; exact ⟨h, Or.inl rfl⟩
        · exact ⟨h1.1, Or.inr h1.2⟩
      · rintro ⟨h1, h2 | h2⟩
        · exact Or.inl h2
        · exact Or.inr ⟨h1, h2⟩

theorem nodup_keys_deleteEntry (l : List (String × List WgId)) (m : String)
    (h : (keys l).Nodup) : (keys (deleteEntry l m)).Nodup := by
  unfold keys deleteEntry at *
  exact (List.nodup_map_iff_inj_on (List.Nodup.filter _ (List.Nodup.of_map _ h))).mpr
    (fun x hx y hy hxy =>
      (List.nodup_map_iff_inj_on (List.Nodup.of_map _ h)).mp h x
        (List.mem_of_mem_filter hx) y (List.mem_of_mem_filter hy) hxy)

theorem waiters_of_not_mem_keys (l : List (String × List WgId)) (m : String)
    (h : m ∉ keys l) : waiters l m = [] := by
  have := (lookup_eq_none_iff l m).mpr h
  simp [waiters, this]

theorem waiters_deleteEntry (l : List (String × List WgId)) (m k : String) :
    waiters (deleteEntry l m) k = if k = m then [] else waiters l k := by
  induction l with
  | nil => simp [deleteEntry, waiters_nil]
  | cons e r ih =>
    obtain ⟨a, v⟩ := e
    simp only [deleteEntry] at ih
    by_cases h : a = m
    · subst h
      simp only [deleteEntry, List.filter_cons, ne_eq, not_true_eq_false, decide_False,
        Bool.false_eq_true, if_false, ih, waiters_cons]
      by_cases h1 : k = a <;> simp [h1]
    · simp only [deleteEntry, List.filter_cons, ne_eq, h, not_false_eq_true, decide_True,
        if_true, waiters_cons, ih]
      by_cases h1 : k = a
      · subst h1; simp [h]
      · simp [h1]

theorem occ_deleteEntry (l : List (String × List WgId)) (m : String) (w : WgId)
    (h : (keys l).Nodup) :
    occ w (deleteEntry l m) + (waiters l m).count w = occ w l := by
  induction l with
  | nil => simp [deleteEntry, occ_nil, waiters_nil]
  | cons e r ih =>
    obtain ⟨a, v⟩ := e
    simp only [keys, List.map_cons, List.nodup_cons] at h
    have ih1 := ih h.2
    simp only [deleteEntry, ne_eq] at ih1
    by_cases h1 : a = m
    · subst h1
      have h4 : waiters r a = [] := waiters_of_not_mem_keys r a h.1
      simp only [deleteEntry, List.filter_cons, ne_eq, not_true_eq_false, decide_False,
        Bool.false_eq_true, if_false, waiters_cons, if_true, occ_cons]
      rw [h4] at ih1
      simp only [List.count_nil, add_zero] at ih1
      omega
    · have h2 : ¬ m = a := fun h3 => h1 h3.symm
      simp only [deleteEntry, List.filter_cons, ne_eq, h1, not_false_eq_true, decide_True,
        if_true, waiters_cons, h2, if_false, occ_cons]
      omega

theorem wgDoneAll_apply (ws : List WgId) (c : WgId → Int) (x : WgId) :
    wgDoneAll c ws x = c x - (ws.count x : Int) := by
  induction ws generalizing c with
  | nil => simp [wgDoneAll]
  | cons w r ih =>
    have h : wgDoneAll c (w :: r) = wgDoneAll (wgAdd c w (-1)) r := rfl
    rw [h, ih]
    by_cases h1 : x = w
    · subst h1; simp [wgAdd]; omega
    · have h2 : ¬ w = x := fun h3 => h1 h3.symm
      simp [wgAdd, h1, List.count_cons, h2]

/-! ### Goroutine list -/

theorem mem_setPhase (ts : List Task) (i : Nat) (p : Phase) (x : Task)
    (h : x ∈ setPhase ts i p) :
    x ∈ ts ∨ ∃ t, ts[i]? = some t ∧ x = { t with phase := p } := by
  induction ts generalizing i with
  | nil => simp [setPhase] at h
  | cons t r ih =>
    cases i with
    | zero =>
      simp only [setPhase, List.mem_cons] at h
      rcases h with h | h
      · exact Or.inr ⟨t, by simp, h⟩
      · exact Or.inl (List.mem_cons_of_mem _ h)
    | succ j =>
      simp only [setPhase, List.mem_cons] at h
      rcases h with h | h
      · exact Or.inl (by simp [h])
      · rcases ih j h with h1 | ⟨t1, h1, h2⟩
        · exact Or.inl (List.mem_cons_of_mem _ h1)
        · exact Or.inr ⟨t1, by simpa using h1, h2⟩

theorem countP_mod_setPhase (ts : List Task) (i : Nat) (p : Phase) (m : String) :
    (setPhase ts i p).countP (fun t => t.mod = m) = ts.countP (fun t => t.mod = m) := by
  induction ts generalizing i with
  | nil => simp [setPhase]
  | cons t r ih =>
    cases i with
    | zero => simp [setPhase, List.countP_cons]
    | succ j => simp [setPhase, List.countP_cons, ih]

theorem mem_of_get? (ts : List Task) (i : Nat) (t : Task) (h : ts[i]? = some t) :
    t ∈ ts := by
  induction ts generalizing i with
  | nil => simp at h
  | cons a r ih =>
    cases i with
    | zero => simp at h; simp [h]
    | succ j => simp at h; exact List.mem_cons_of_mem _ (ih j h)

/-! ### Induction over `loadModuleUnlocked` -/

/-- How one loop iteration ends. -/
theorem loadModuleIter_cases (cfg : InitConfig)
    (recur : WgId → List String → Registry → Option Registry)
    (wg : WgId) (s t : Registry) (m : String)
    (h : loadModuleIter cfg recur wg s m = some t) :
    (m ∈ s.loadedModules ∧ t = s) ∨
    (m ∉ s.loadedModules ∧ m ∈ keys s.loadingModules ∧ t = attach s m wg) ∨
    (m ∉ s.loadedModules ∧ m ∉ keys s.loadingModules ∧
      ∃ s3, t = spawn s3 m s.nextWg ∧
        ((∃ deps, cfg.ModuleDependencies.lookup m = some deps ∧
            recur s.nextWg deps (newWaitGroup (attach s m wg)) = some s3) ∨
          (cfg.ModuleDependencies.lookup m = none ∧ s3 = newWaitGroup (attach s m wg)))) := by
  unfold loadModuleIter at h
  by_cases h1 : m ∈ s.loadedModules
  · simp only [h1, if_true, Option.some.injEq] at h
    exact Or.inl ⟨h1, h.symm⟩
  · simp only [h1, if_false] at h
    cases h2 : (s.loadingModules.lookup m).isSome with
    | true =>
      simp only [h2, if_true, Option.some.injEq] at h
      exact Or.inr (Or.inl ⟨h1, (lookup_isSome_iff _ _).mp h2, h.symm⟩)
    | false =>
      simp only [h2, Bool.false_eq_true, if_false] at h
      have h3 : m ∉ keys s.loadingModules := fun hk => by
        have := (lookup_isSome_iff _ _).mpr hk
        simp [h2] at this
      refine Or.inr (Or.inr ⟨h1, h3, ?_⟩)
      cases hd : cfg.ModuleDependencies.lookup m with
      | none =>
        simp only [hd, Option.map_some', Option.some.injEq] at h
        exact ⟨_, h.symm, Or.inr ⟨rfl, rfl⟩⟩
      | some deps =>
        simp only [hd, Option.map_eq_some'] at h
        obtain ⟨s3, h4, h5⟩ := h
        exact ⟨s3, h5.symm, Or.inl ⟨deps, rfl, h4⟩⟩

/-- Induction principle: a relation between the state at entry and the state at return holds
for every call that returns, once it holds for the empty list, composes over the loop, and
holds for each of the three ways an iteration can go. -/
theorem loadModuleUnlocked_induct (cfg : InitConfig)
    (P : WgId → List String → Registry → Registry → Prop)
    (hnil : ∀ wg s, P wg [] s s)
    (hcons : ∀ wg m rest s s1 s2, P wg [m] s s1 → P wg rest s1 s2 → P wg (m :: rest) s s2)
    (hloaded : ∀ wg m s, m ∈ s.loadedModules → P wg [m] s s)
    (hattach : ∀ wg m s, m ∉ s.loadedModules → m ∈ keys s.loadingModules →
      P wg [m] s (attach s m wg))
    (hspawn : ∀ wg m s s3, m ∉ s.loadedModules → m ∉ keys s.loadingModules →
      P s.nextWg (depsOf cfg m) (newWaitGroup (attach s m wg)) s3 →
      P wg [m] s (spawn s3 m s.nextWg)) :
    ∀ fuel wg mods s t, loadModuleUnlocked cfg fuel wg mods s = some t → P wg mods s t := by
  intro fuel
  induction fuel with
  | zero => intro wg mods s t h; simp [loadModuleUnlocked] at h
  | succ fuel ih =>
    intro wg mods
    induction mods with
    | nil =>
      intro s t h
      simp only [loadModuleUnlocked, List.foldlM_nil, pure, Option.some.injEq] at h
      subst h
      exact hnil wg _
    | cons m rest ihl =>
      intro s t h
      simp only [loadModuleUnlocked, List.foldlM_cons, bind, Option.bind_eq_some] at h
      obtain ⟨s1, h1, h2⟩ := h
      refine hcons wg m rest _ s1 t ?_ (ihl s1 t (by simpa [loadModuleUnlocked] using h2))
      rcases loadModuleIter_cases cfg _ wg s s1 m h1 with
        ⟨h3, h4⟩ | ⟨h3, h4, h5⟩ | ⟨h3, h4, s3, h5, h6⟩
      · rw [h4]; exact hloaded wg m s h3
      · rw [h5]; exact hattach wg m s h3 h4
      · rw [h5]
        refine hspawn wg m s s3 h3 h4 ?_
        rcases h6 with ⟨deps, h7, h8⟩ | ⟨h7, h8⟩
        · have : depsOf cfg m = deps := by simp [depsOf, h7]
          rw [this]
          exact ih _ _ _ _ h8
        · have : depsOf cfg m = [] := by simp [depsOf, h7]
          rw [this, h8]
          exact hnil _ _

/-! ### The invariant of the registry -/

theorem Grows.refl (s : Registry) : Grows s s :=
  ⟨rfl, le_refl _, fun _ h => h, fun _ _ h => h, fun _ _ => rfl, fun _ h => Or.inl h,
    fun _ h => Or.inl h⟩

theorem Grows.trans {a b c : Registry} (h1 : Grows a b) (h2 : Grows b c) : Grows a c where
  loaded_eq := h2.loaded_eq.trans h1.loaded_eq
  nextWg_le := le_trans h1.nextWg_le h2.nextWg_le
  keys_mono := fun m h => h2.keys_mono m (h1.keys_mono m h)
  waiters_mono := fun m w h => h2.waiters_mono m w (h1.waiters_mono m w h)
  spawn_frame := fun m h => by
    rw [h2.spawn_frame m, h1.spawn_frame m h]
    rcases h with h | h
    · exact Or.inl (h1.loaded_eq ▸ h)
    · exact Or.inr (h1.keys_mono m h)
  tasks_new := fun x hx => by
    rcases h2.tasks_new x hx with h3 | ⟨h3, h4, h5⟩
    · exact h1.tasks_new x h3
    · exact Or.inr ⟨h3, fun h6 => h4 (h1.loaded_eq ▸ h6), fun h6 => h5 (h1.keys_mono _ h6)⟩
  log_new := fun e he => by
    rcases h2.log_new e he with h3 | h3
    · exact h1.log_new e h3
    · exact Or.inr h3

theorem ordered_cons (cfg : InitConfig) (log : List Event) (e : Event)
    (he : ∀ M, e ≠ Event.began M) (h : Ordered cfg log) : Ordered cfg (e :: log) := by
  intro post pre M hsplit P hP
  cases post with
  | nil =>
    simp only [List.nil_append, List.cons.injEq] at hsplit
    exact absurd hsplit.1 (he M)
  | cons x post1 =>
    simp only [List.cons_append, List.cons.injEq] at hsplit
    exact h post1 pre M hsplit.2 P hP

theorem mem_waiters_attach (s : Registry) (m : String) (wg : WgId) :
    wg ∈ waiters (attach s m wg).loadingModules m := by
  simp [attach, waiters_setEntry]

theorem grows_attach (s : Registry) (m : String) (wg : WgId) : Grows s (attach s m wg) where
  loaded_eq := rfl
  nextWg_le := le_refl _
  keys_mono := fun k h => by
    simp only [attach, mem_keys_setEntry]
    exact Or.inr h
  waiters_mono := fun k w h => by
    simp only [attach, waiters_setEntry]
    by_cases hk : k = m
    · subst hk; simp [h]
    · simp [hk, h]
  spawn_frame := fun _ _ => rfl
  tasks_new := fun _ h => Or.inl h
  log_new := fun _ h => Or.inl h

theorem grows_newWaitGroup (s : Registry) : Grows s (newWaitGroup s) where
  loaded_eq := rfl
  nextWg_le := Nat.le_succ _
  keys_mono := fun _ h => h
  waiters_mono := fun _ _ h => h
  spawn_frame := fun _ _ => rfl
  tasks_new := fun _ h => Or.inl h
  log_new := fun _ h => Or.inl h

theorem inv_attach (cfg : InitConfig) (s : Registry) (m : String) (wg : WgId)
    (h : Inv cfg s) (hwg : wg < s.nextWg) (hm : m ∉ s.loadedModules) :
    Inv cfg (attach s m wg) where
  counter_eq := fun w => by
    have h1 := occ_setEntry s.loadingModules m (waiters s.loadingModules m ++ [wg]) w
    have h2 := h.counter_eq w
    simp only [List.count_append, List.count_singleton] at h1
    simp only [attach, wgAdd]
    by_cases hw : w = wg
    · subst hw; simp only [if_true, beq_self_eq_true] at h1 ⊢; omega
    · have hw2 : (wg == w) = false := by simpa using fun h3 => hw h3.symm
      simp only [hw, if_false, hw2, Bool.false_eq_true] at h1 ⊢; omega
  fresh := fun w hw => by
    have h1 := occ_setEntry s.loadingModules m (waiters s.loadingModules m ++ [wg]) w
    have hw1 : s.nextWg ≤ w := hw
    have h2 := h.fresh w hw1
    simp only [List.count_append, List.count_singleton] at h1
    have hw2 : (wg == w) = false := by
      have : wg ≠ w := Nat.ne_of_lt (lt_of_lt_of_le hwg hw1)
      simpa using this
    simp only [hw2, Bool.false_eq_true, if_false] at h1
    simp only [attach]
    omega
  nodupKeys := nodup_keys_setEntry _ _ _ h.nodupKeys
  disjoint := fun k hk hk2 => by
    simp only [attach, mem_keys_setEntry] at hk2
    rcases hk2 with hk2 | hk2
    · subst hk2; exact hm hk
    · exact h.disjoint k hk hk2
  waitingDeps := fun t ht hp d hd => by
    rcases h.waitingDeps t ht hp d hd with h1 | h1
    · exact Or.inl h1
    · exact Or.inr ((grows_attach s m wg).waiters_mono d _ h1)
  startedDeps := h.startedDeps
  insertedLog := h.insertedLog
  insertingLog := h.insertingLog
  loadedClosed := h.loadedClosed
  loadedLog := h.loadedLog
  ordered := h.ordered
  completedLoaded := h.completedLoaded
  spawnedOnce := h.spawnedOnce
  spawnedKnown := fun k hk => by
    rcases h.spawnedKnown k hk with h1 | h1
    · exact Or.inl h1
    · exact Or.inr ((grows_attach s m wg).keys_mono k h1)
  tasksLog := h.tasksLog

theorem inv_newWaitGroup (cfg : InitConfig) (s : Registry) (h : Inv cfg s) :
    Inv cfg (newWaitGroup s) where
  counter_eq := fun w => by
    simp only [newWaitGroup]
    by_cases hw : w = s.nextWg
    · subst hw
      have := h.fresh s.nextWg (le_refl _)
      simp [this]
    · simp only [hw, if_false]
      exact h.counter_eq w
  fresh := fun w hw => h.fresh w (Nat.le_of_succ_le hw)
  nodupKeys := h.nodupKeys
  disjoint := h.disjoint
  waitingDeps := h.waitingDeps
  startedDeps := h.startedDeps
  insertedLog := h.insertedLog
  insertingLog := h.insertingLog
  loadedClosed := h.loadedClosed
  loadedLog := h.loadedLog
  ordered := h.ordered
  completedLoaded := h.completedLoaded
  spawnedOnce := h.spawnedOnce
  spawnedKnown := h.spawnedKnown
  tasksLog := h.tasksLog

theorem inv_spawn (cfg : InitConfig) (s : Registry) (m : String) (w : WgId)
    (h : Inv cfg s)
    (hd : ∀ d ∈ depsOf cfg m, d ∈ s.loadedModules ∨ w ∈ waiters s.loadingModules d)
    (hk : m ∈ keys s.loadingModules) (hc : s.log.count (Event.spawned m) = 0) :
    Inv cfg (spawn s m w) where
  counter_eq := h.counter_eq
  fresh := h.fresh
  nodupKeys := h.nodupKeys
  disjoint := h.disjoint
  waitingDeps := fun t ht hp d hdd => by
    simp only [spawn, List.mem_append, List.mem_singleton] at ht
    rcases ht with ht | ht
    · exact h.waitingDeps t ht hp d hdd
    · subst ht; exact hd d hdd
  startedDeps := fun t ht hp d hdd => by
    simp only [spawn, List.mem_append, List.mem_singleton] at ht
    rcases ht with ht | ht
    · exact h.startedDeps t ht hp d hdd
    · subst ht; exact absurd rfl hp
  insertedLog := fun t ht hp => by
    simp only [spawn, List.mem_append, List.mem_singleton] at ht
    rcases ht with ht | ht
    · exact ⟨List.mem_cons_of_mem _ (h.insertedLog t ht hp).1,
        List.mem_cons_of_mem _ (h.insertedLog t ht hp).2⟩
    · subst ht; cases hp
  insertingLog := fun t ht hp => by
    simp only [spawn, List.mem_append, List.mem_singleton] at ht
    rcases ht with ht | ht
    · exact List.mem_cons_of_mem _ (h.insertingLog t ht hp)
    · subst ht; cases hp
  loadedClosed := h.loadedClosed
  loadedLog := fun k hk2 =>
    ⟨List.mem_cons_of_mem _ (h.loadedLog k hk2).1, List.mem_cons_of_mem _ (h.loadedLog k hk2).2.1,
      List.mem_cons_of_mem _ (h.loadedLog k hk2).2.2⟩
  ordered := ordered_cons cfg _ _ (fun M => by simp) h.ordered
  completedLoaded := fun k hk2 => by
    simp only [spawn, List.mem_cons] at hk2
    rcases hk2 with hk2 | hk2
    · cases hk2
    · exact h.completedLoaded k hk2
  spawnedOnce := fun k => by
    simp only [spawn, List.count_cons]
    by_cases hkm : k = m
    · subst hkm; simp [hc]
    · have : (Event.spawned m == Event.spawned k) = false := by
        simpa using fun h3 => hkm h3.symm
      simp only [this, Bool.false_eq_true, if_false, add_zero]
      exact h.spawnedOnce k
  spawnedKnown := fun k hk2 => by
    simp only [spawn, List.mem_cons, Event.spawned.injEq] at hk2
    rcases hk2 with hk2 | hk2
    · subst hk2; exact Or.inr hk
    · exact h.spawnedKnown k hk2
  tasksLog := fun k => by
    simp only [spawn, List.countP_append, List.count_cons, List.countP_cons, List.countP_nil,
      h.tasksLog k]
    by_cases hkm : m = k
    · subst hkm; simp
    · simp [hkm]

/-- The effect of a call `loadModuleUnlocked(wg, mods...)` that returns: the invariant is
kept, the state only grows, and every requested module is loaded or has `wg` attached. -/
theorem loadModuleUnlocked_inv (cfg : InitConfig) (fuel : Nat) (wg : WgId)
    (mods : List String) (s t : Registry)
    (hrun : loadModuleUnlocked cfg fuel wg mods s = some t)
    (h : Inv cfg s) (hwg : wg < s.nextWg) :
    Inv cfg t ∧ Grows s t ∧
      ∀ m ∈ mods, m ∈ t.loadedModules ∨ wg ∈ waiters t.loadingModules m := by
  refine loadModuleUnlocked_induct cfg
    (fun wg mods s t => Inv cfg s → wg < s.nextWg →
      Inv cfg t ∧ Grows s t ∧
        ∀ m ∈ mods, m ∈ t.loadedModules ∨ wg ∈ waiters t.loadingModules m)
    ?_ ?_ ?_ ?_ ?_ fuel wg mods s t hrun h hwg
  · intro wg s h _
    exact ⟨h, Grows.refl s, by simp⟩
  · intro wg m rest s s1 s2 h1 h2 h hwg
    obtain ⟨i1, g1, a1⟩ := h1 h hwg
    obtain ⟨i2, g2, a2⟩ := h2 i1 (lt_of_lt_of_le hwg g1.nextWg_le)
    refine ⟨i2, g1.trans g2, ?_⟩
    intro k hk
    simp only [List.mem_cons] at hk
    rcases hk with hk | hk
    · subst hk
      rcases a1 k (by simp) with h3 | h3
      · exact Or.inl (g2.loaded_eq ▸ h3)
      · exact Or.inr (g2.waiters_mono k wg h3)
    · exact a2 k hk
  · intro wg m s hm h _
    exact ⟨h, Grows.refl s, by simpa using Or.inl hm⟩
  · intro wg m s hm _ h hwg
    exact ⟨inv_attach cfg s m wg h hwg hm, grows_attach s m wg,
      by simpa using Or.inr (mem_waiters_attach s m wg)⟩
  · intro wg m s s3 hm hk hrec h hwg
    have i1 := inv_attach cfg s m wg h hwg hm
    have i2 := inv_newWaitGroup cfg _ i1
    obtain ⟨i3, g3, a3⟩ := hrec i2 (by simp [newWaitGroup, attach])
    have g2 : Grows s (newWaitGroup (attach s m wg)) :=
      (grows_attach s m wg).trans (grows_newWaitGroup _)
    have g : Grows s s3 := g2.trans g3
    have hk3 : m ∈ keys s3.loadingModules :=
      g3.keys_mono m (by simp [newWaitGroup, attach, mem_keys_setEntry])
    have hc0 : s.log.count (Event.spawned m) = 0 := by
      rw [List.count_eq_zero]
      intro hmem
      rcases h.spawnedKnown m hmem with h5 | h5
      · exact hm h5
      · exact hk h5
    have hc : s3.log.count (Event.spawned m) = 0 := by
      rw [g3.spawn_frame m (Or.inr (by simp [newWaitGroup, attach, mem_keys_setEntry]))]
      exact hc0
    refine ⟨inv_spawn cfg s3 m s.nextWg i3 a3 hk3 hc, ?_, ?_⟩
    · exact
        { loaded_eq := g.loaded_eq
          nextWg_le := g.nextWg_le
          keys_mono := g.keys_mono
          waiters_mono := g.waiters_mono
          spawn_frame := fun k hk2 => by
            have hkm : k ≠ m := by
              rintro rfl
              rcases hk2 with h5 | h5
              · exact hm h5
              · exact hk h5
            have : (Event.spawned m == Event.spawned k) = false := by
              simpa using fun h3 => hkm h3.symm
            simp only [spawn, List.count_cons, this, Bool.false_eq_true, if_false, add_zero]
            exact g.spawn_frame k hk2
          tasks_new := fun x hx => by
            simp only [spawn, List.mem_append, List.mem_singleton] at hx
            rcases hx with hx | hx
            · exact g.tasks_new x hx
            · subst hx; exact Or.inr ⟨rfl, hm, hk⟩
          log_new := fun e he => by
            simp only [spawn, List.mem_cons] at he
            rcases he with he | he
            · exact Or.inr ⟨m, he⟩
            · exact g.log_new e he }
    · intro k hk2
      simp only [List.mem_singleton] at hk2
      subst hk2
      exact Or.inr (g3.waiters_mono k wg (mem_waiters_attach s k wg))

/-! ### Every step keeps the invariant -/

theorem inv_init (cfg : InitConfig) : Inv cfg Registry.init where
  counter_eq := fun _ => rfl
  fresh := fun _ _ => rfl
  nodupKeys := List.nodup_nil
  disjoint := fun _ h => by simp [Registry.init] at h
  waitingDeps := fun _ h => by simp [Registry.init] at h
  startedDeps := fun _ h => by simp [Registry.init] at h
  insertedLog := fun _ h => by simp [Registry.init] at h
  insertingLog := fun _ h => by simp [Registry.init] at h
  loadedClosed := fun _ h => by simp [Registry.init] at h
  loadedLog := fun _ h => by simp [Registry.init] at h
  ordered := fun post pre M h => by simp [Registry.init] at h
  completedLoaded := fun _ h => by simp [Registry.init] at h
  spawnedOnce := fun _ => by simp [Registry.init]
  spawnedKnown := fun _ h => by simp [Registry.init] at h
  tasksLog := fun _ => by simp [Registry.init]

theorem prereq_loaded (cfg : InitConfig) (loaded : List String) (M P : String)
    (hM : ∀ d ∈ depsOf cfg M, d ∈ loaded)
    (hclosed : ∀ m ∈ loaded, ∀ d ∈ depsOf cfg m, d ∈ loaded)
    (h : Prereq cfg M P) : P ∈ loaded := by
  induction h with
  | single hd => exact hM _ hd
  | tail _ hd ih => exact hclosed _ ih _ hd

theorem taskBegin_eq (i : Nat) (s t : Registry) (h : taskBegin i s = some t) :
    ∃ x, s.tasks[i]? = some x ∧ x.phase = Phase.waiting ∧ s.counter x.depsWg = 0 ∧
      t = { s with tasks := setPhase s.tasks i Phase.inserting,
                   log := Event.began x.mod :: s.log } := by
  unfold taskBegin at h
  cases hx : s.tasks[i]? with
  | none => simp [hx] at h
  | some x =>
    simp only [hx] at h
    by_cases hc : x.phase = Phase.waiting ∧ s.counter x.depsWg = 0
    · simp only [hc, and_self, if_true, Option.some.injEq] at h
      exact ⟨x, rfl, hc.1, hc.2, h.symm⟩
    · simp only [hc, if_false] at h
      cases h

theorem taskFinit_eq (i : Nat) (ok : Bool) (s t : Registry) (h : taskFinit i ok s = some t) :
    ∃ x, s.tasks[i]? = some x ∧ x.phase = Phase.inserting ∧
      t = { s with
            tasks := setPhase s.tasks i (if ok then Phase.inserted else Phase.failed),
            log := (if ok then Event.finitOk x.mod else Event.finitErr x.mod) :: s.log } := by
  unfold taskFinit at h
  cases hx : s.tasks[i]? with
  | none => simp [hx] at h
  | some x =>
    simp only [hx] at h
    by_cases hc : x.phase = Phase.inserting
    · cases ok
      · simp only [hc, if_true, Bool.false_eq_true, if_false, Option.some.injEq] at h
        exact ⟨x, rfl, hc, by simp [← h]⟩
      · simp only [hc, if_true, Option.some.injEq] at h
        exact ⟨x, rfl, hc, by simp [← h]⟩
    · simp only [hc, if_false] at h
      cases h

theorem taskComplete_eq (i : Nat) (s t : Registry) (h : taskComplete i s = some t) :
    ∃ x, s.tasks[i]? = some x ∧ x.phase = Phase.inserted ∧
      t = { s with
            counter := wgDoneAll s.counter (waiters s.loadingModules x.mod)
            loadingModules := deleteEntry s.loadingModules x.mod
            loadedModules := x.mod :: s.loadedModules
            tasks := setPhase s.tasks i Phase.finished
            log := Event.completed x.mod :: s.log } := by
  unfold taskComplete at h
  cases hx : s.tasks[i]? with
  | none => simp [hx] at h
  | some x =>
    simp only [hx] at h
    by_cases hc : x.phase = Phase.inserted
    · simp only [hc, if_true, Option.some.injEq] at h
      exact ⟨x, rfl, hc, h.symm⟩
    · simp only [hc, if_false] at h
      cases h

theorem inv_taskBegin (cfg : InitConfig) (i : Nat) (s t : Registry)
    (hstep : taskBegin i s = some t) (h : Inv cfg s) : Inv cfg t := by
  obtain ⟨x, hx, hph, hzero, rfl⟩ := taskBegin_eq i s t hstep
  have hxmem : x ∈ s.tasks := mem_of_get? _ _ _ hx
  have hdeps : ∀ d ∈ depsOf cfg x.mod, d ∈ s.loadedModules := by
    intro d hd
    rcases h.waitingDeps x hxmem hph d hd with h1 | h1
    · exact h1
    · have h2 := occ_pos_of_mem_waiters _ _ _ h1
      have h3 := h.counter_eq x.depsWg
      rw [hzero] at h3
      omega
  exact
    { counter_eq := h.counter_eq
      fresh := h.fresh
      nodupKeys := h.nodupKeys
      disjoint := h.disjoint
      waitingDeps := fun y hy hp d hd => by
        rcases mem_setPhase _ _ _ _ hy with h1 | ⟨z, _, h2⟩
        · exact h.waitingDeps y h1 hp d hd
        · subst h2; cases hp
      startedDeps := fun y hy hp d hd => by
        rcases mem_setPhase _ _ _ _ hy with h1 | ⟨z, hz, h2⟩
        · exact h.startedDeps y h1 hp d hd
        · subst h2
          have : z = x := by rw [hx] at hz; exact (Option.some.inj hz).symm
          subst this
          exact hdeps d hd
      insertedLog := fun y hy hp => by
        rcases mem_setPhase _ _ _ _ hy with h1 | ⟨z, _, h2⟩
        · exact ⟨List.mem_cons_of_mem _ (h.insertedLog y h1 hp).1,
            List.mem_cons_of_mem _ (h.insertedLog y h1 hp).2⟩
        · subst h2; cases hp
      insertingLog := fun y hy hp => by
        rcases mem_setPhase _ _ _ _ hy with h1 | ⟨z, hz, h2⟩
        · exact List.mem_cons_of_mem _ (h.insertingLog y h1 hp)
        · subst h2
          have : z = x := by rw [hx] at hz; exact (Option.some.inj hz).symm
          subst this
          simp
      loadedClosed := h.loadedClosed
      loadedLog := fun k hk =>
        ⟨List.mem_cons_of_mem _ (h.loadedLog k hk).1,
          List.mem_cons_of_mem _ (h.loadedLog k hk).2.1,
          List.mem_cons_of_mem _ (h.loadedLog k hk).2.2⟩
      ordered := by
        intro post pre M hsplit P hP
        cases post with
        | nil =>
          simp only [List.nil_append, List.cons.injEq, Event.began.injEq] at hsplit
          obtain ⟨hM, hpre⟩ := hsplit
          subst hM
          rw [← hpre]
          exact h.loadedLog P (prereq_loaded cfg _ _ P hdeps h.loadedClosed hP)
        | cons e post1 =>
          simp only [List.cons_append, List.cons.injEq] at hsplit
          exact h.ordered post1 pre M hsplit.2 P hP
      completedLoaded := fun k hk => by
        simp only [List.mem_cons] at hk
        rcases hk with hk | hk
        · cases hk
        · exact h.completedLoaded k hk
      spawnedOnce := fun k => by
        simp only [List.count_cons]
        have : (Event.began x.mod == Event.spawned k) = false := by simp
        simp only [this, Bool.false_eq_true, if_false, add_zero]
        exact h.spawnedOnce k
      spawnedKnown := fun k hk => by
        simp only [List.mem_cons] at hk
        rcases hk with hk | hk
        · cases hk
        · exact h.spawnedKnown k hk
      tasksLog := fun k => by
        simp only [countP_mod_setPhase, List.count_cons]
        have : (Event.began x.mod == Event.spawned k) = false := by simp
        simp only [this, Bool.false_eq_true, if_false, add_zero]
        exact h.tasksLog k }

theorem inv_taskFinit (cfg : InitConfig) (i : Nat) (ok : Bool) (s t : Registry)
    (hstep : taskFinit i ok s = some t) (h : Inv cfg s) : Inv cfg t := by
  obtain ⟨x, hx, hph, rfl⟩ := taskFinit_eq i ok s t hstep
  have hxmem : x ∈ s.tasks := mem_of_get? _ _ _ hx
  have hne : ∀ k, ((if ok then Event.finitOk x.mod else Event.finitErr x.mod)
      == Event.spawned k) = false := by
    intro k; cases ok <;> simp
  exact
    { counter_eq := h.counter_eq
      fresh := h.fresh
      nodupKeys := h.nodupKeys
      disjoint := h.disjoint
      waitingDeps := fun y hy hp d hd => by
        rcases mem_setPhase _ _ _ _ hy with h1 | ⟨z, _, h2⟩
        · exact h.waitingDeps y h1 hp d hd
        · subst h2; cases ok <;> cases hp
      startedDeps := fun y hy hp d hd => by
        rcases mem_setPhase _ _ _ _ hy with h1 | ⟨z, hz, h2⟩
        · exact h.startedDeps y h1 hp d hd
        · subst h2
          have : z = x := by rw [hx] at hz; exact (Option.some.inj hz).symm
          subst this
          exact h.startedDeps z hxmem (by rw [hph]; decide) d hd
      insertedLog := fun y hy hp => by
        rcases mem_setPhase _ _ _ _ hy with h1 | ⟨z, hz, h2⟩
        · exact ⟨List.mem_cons_of_mem _ (h.insertedLog y h1 hp).1,
            List.mem_cons_of_mem _ (h.insertedLog y h1 hp).2⟩
        · subst h2
          have : z = x := by rw [hx] at hz; exact (Option.some.inj hz).symm
          subst this
          cases ok
          · cases hp
          · exact ⟨List.mem_cons_of_mem _ (h.insertingLog z hxmem hph), by simp⟩
      insertingLog := fun y hy hp => by
        rcases mem_setPhase _ _ _ _ hy with h1 | ⟨z, hz, h2⟩
        · exact List.mem_cons_of_mem _ (h.insertingLog y h1 hp)
        · subst h2; cases ok <;> cases hp
      loadedClosed := h.loadedClosed
      loadedLog := fun k hk =>
        ⟨List.mem_cons_of_mem _ (h.loadedLog k hk).1,
          List.mem_cons_of_mem _ (h.loadedLog k hk).2.1,
          List.mem_cons_of_mem _ (h.loadedLog k hk).2.2⟩
      ordered := ordered_cons cfg _ _ (fun M => by cases ok <;> simp) h.ordered
      completedLoaded := fun k hk => by
        simp only [List.mem_cons] at hk
        rcases hk with hk | hk
        · cases ok <;> cases hk
        · exact h.completedLoaded k hk
      spawnedOnce := fun k => by
        simp only [List.count_cons, hne k, Bool.false_eq_true, if_false, add_zero]
        exact h.spawnedOnce k
      spawnedKnown := fun k hk => by
        simp only [List.mem_cons] at hk
        rcases hk with hk | hk
        · cases ok <;> cases hk
        · exact h.spawnedKnown k hk
      tasksLog := fun k => by
        simp only [countP_mod_setPhase, List.count_cons, hne k, Bool.false_eq_true, if_false,
          add_zero]
        exact h.tasksLog k }

theorem inv_taskComplete (cfg : InitConfig) (i : Nat) (s t : Registry)
    (hstep : taskComplete i s = some t) (h : Inv cfg s) : Inv cfg t := by
  obtain ⟨x, hx, hph, rfl⟩ := taskComplete_eq i s t hstep
  have hxmem : x ∈ s.tasks := mem_of_get? _ _ _ hx
  have hne : ∀ k, (Event.completed x.mod == Event.spawned k) = false := by
    intro k; simp
  exact
    { counter_eq := fun w => by
        have h1 := occ_deleteEntry s.loadingModules x.mod w h.nodupKeys
        have h2 := h.counter_eq w
        simp only [wgDoneAll_apply]
        omega
      fresh := fun w hw => by
        have h1 := occ_deleteEntry s.loadingModules x.mod w h.nodupKeys
        have h2 := h.fresh w hw
        show occ w (deleteEntry s.loadingModules x.mod) = 0
        omega
      nodupKeys := nodup_keys_deleteEntry _ _ h.nodupKeys
      disjoint := fun k hk hk2 => by
        have hk3 := (mem_keys_deleteEntry _ _ _).mp hk2
        simp only [List.mem_cons] at hk
        rcases hk with hk | hk
        · exact hk3.1 hk
        · exact h.disjoint k hk hk3.2
      waitingDeps := fun y hy hp d hd => by
        rcases mem_setPhase _ _ _ _ hy with h1 | ⟨z, _, h2⟩
        · by_cases hdx : d = x.mod
          · exact Or.inl (by simp [hdx])
          · rcases h.waitingDeps y h1 hp d hd with h3 | h3
            · exact Or.inl (List.mem_cons_of_mem _ h3)
            · refine Or.inr ?_
              simp only [waiters_deleteEntry, hdx, if_false]
              exact h3
        · subst h2; cases hp
      startedDeps := fun y hy hp d hd => by
        rcases mem_setPhase _ _ _ _ hy with h1 | ⟨z, hz, h2⟩
        · exact List.mem_cons_of_mem _ (h.startedDeps y h1 hp d hd)
        · subst h2
          have : z = x := by rw [hx] at hz; exact (Option.some.inj hz).symm
          subst this
          exact List.mem_cons_of_mem _ (h.startedDeps z hxmem (by rw [hph]; decide) d hd)
      insertedLog := fun y hy hp => by
        rcases mem_setPhase _ _ _ _ hy with h1 | ⟨z, _, h2⟩
        · exact ⟨List.mem_cons_of_mem _ (h.insertedLog y h1 hp).1,
            List.mem_cons_of_mem _ (h.insertedLog y h1 hp).2⟩
        · subst h2; cases hp
      insertingLog := fun y hy hp => by
        rcases mem_setPhase _ _ _ _ hy with h1 | ⟨z, _, h2⟩
        · exact List.mem_cons_of_mem _ (h.insertingLog y h1 hp)
        · subst h2; cases hp
      loadedClosed := fun k hk d hd => by
        simp only [List.mem_cons] at hk
        rcases hk with hk | hk
        · subst hk
          exact List.mem_cons_of_mem _ (h.startedDeps x hxmem (by rw [hph]; decide) d hd)
        · exact List.mem_cons_of_mem _ (h.loadedClosed k hk d hd)
      loadedLog := fun k hk => by
        simp only [List.mem_cons] at hk
        rcases hk with hk | hk
        · subst hk
          exact ⟨List.mem_cons_of_mem _ (h.insertedLog x hxmem hph).1,
            List.mem_cons_of_mem _ (h.insertedLog x hxmem hph).2, by simp⟩
        · exact ⟨List.mem_cons_of_mem _ (h.loadedLog k hk).1,
            List.mem_cons_of_mem _ (h.loadedLog k hk).2.1,
            List.mem_cons_of_mem _ (h.loadedLog k hk).2.2⟩
      ordered := ordered_cons cfg _ _ (fun M => by simp) h.ordered
      completedLoaded := fun k hk => by
        simp only [List.mem_cons, Event.completed.injEq] at hk
        rcases hk with hk | hk
        · exact List.mem_cons.mpr (Or.inl hk)
        · exact List.mem_cons_of_mem _ (h.completedLoaded k hk)
      spawnedOnce := fun k => by
        simp only [List.count_cons, hne k, Bool.false_eq_true, if_false, add_zero]
        exact h.spawnedOnce k
      spawnedKnown := fun k hk => by
        simp only [List.mem_cons] at hk
        rcases hk with hk | hk
        · cases hk
        · by_cases hkx : k = x.mod
          · exact Or.inl (by simp [hkx])
          · rcases h.spawnedKnown k hk with h3 | h3
            · exact Or.inl (List.mem_cons_of_mem _ h3)
            · exact Or.inr ((mem_keys_deleteEntry _ _ _).mpr ⟨hkx, h3⟩)
      tasksLog := fun k => by
        simp only [countP_mod_setPhase, List.count_cons, hne k, Bool.false_eq_true, if_false,
          add_zero]
        exact h.tasksLog k }

theorem loadModules_eq (cfg : InitConfig) (mods : List String) (s t : Registry) (wg : WgId)
    (h : loadModules cfg mods s = some (wg, t)) :
    wg = s.nextWg ∧
      loadModuleUnlocked cfg ((moduleNames cfg mods).length + 1) s.nextWg mods
        (newWaitGroup s) = some t := by
  simp only [loadModules, Option.map_eq_some', Prod.mk.injEq] at h
  obtain ⟨a, h1, h2, h3⟩ := h
  subst h3
  exact ⟨h2.symm, h1⟩

/-- A call of `loadModules` keeps the invariant, and its wait group is attached to every
requested module that is not loaded. -/
theorem inv_loadModules (cfg : InitConfig) (mods : List String) (s t : Registry) (wg : WgId)
    (hcall : loadModules cfg mods s = some (wg, t)) (h : Inv cfg s) :
    Inv cfg t ∧ Grows s t ∧
      ∀ m ∈ mods, m ∈ t.loadedModules ∨ wg ∈ waiters t.loadingModules m := by
  obtain ⟨hwg, hrun⟩ := loadModules_eq cfg mods s t wg hcall
  subst hwg
  obtain ⟨h1, h2, h3⟩ := loadModuleUnlocked_inv cfg _ _ _ _ _ hrun
    (inv_newWaitGroup cfg s h) (Nat.lt_succ_self _)
  exact ⟨h1, (grows_newWaitGroup s).trans h2, h3⟩

theorem inv_step (cfg : InitConfig) (a : Action) (s t : Registry)
    (hstep : step cfg a s = some t) (h : Inv cfg s) : Inv cfg t := by
  cases a with
  | request mods =>
    simp only [step, Option.map_eq_some'] at hstep
    obtain ⟨⟨wg, u⟩, h1, h2⟩ := hstep
    subst h2
    exact (inv_loadModules cfg mods s u wg h1 h).1
  | begin i => exact inv_taskBegin cfg i s t hstep h
  | finit i ok => exact inv_taskFinit cfg i ok s t hstep h
  | complete i => exact inv_taskComplete cfg i s t hstep h

theorem run_nil (cfg : InitConfig) (s : Registry) : run cfg [] s = some s := rfl

theorem run_cons (cfg : InitConfig) (a : Action) (acts : List Action) (s : Registry) :
    run cfg (a :: acts) s = (step cfg a s).bind (run cfg acts) := by
  simp only [run, List.foldlM_cons]
  rfl

/-- Induction over the steps that lead from `s` to `t`. -/
theorem later_induct (cfg : InitConfig) (Q : Registry → Prop)
    (hstep : ∀ a s t, step cfg a s = some t → Q s → Q t)
    (s t : Registry) (hl : Later cfg s t) (h : Q s) : Q t := by
  obtain ⟨acts, hrun⟩ := hl
  induction acts generalizing s with
  | nil =>
    simp only [run_nil, Option.some.injEq] at hrun
    exact hrun ▸ h
  | cons a acts ih =>
    rw [run_cons] at hrun
    cases h1 : step cfg a s with
    | none => simp [h1] at hrun
    | some u =>
      simp only [h1, Option.some_bind] at hrun
      exact ih u (hstep a s u h1 h) hrun

theorem inv_later (cfg : InitConfig) (s t : Registry) (hl : Later cfg s t) (h : Inv cfg s) :
    Inv cfg t :=
  later_induct cfg (Inv cfg) (fun a s t hs hi => inv_step cfg a s t hs hi) s t hl h

theorem inv_reachable (cfg : InitConfig) (s : Registry) (h : Reachable cfg s) : Inv cfg s :=
  inv_later cfg _ _ h (inv_init cfg)

/-! ### Termination of the dependency recursion -/

theorem deps_subset_moduleNames (cfg : InitConfig) (mods : List String) (m : String)
    (deps : List String) (h : cfg.ModuleDependencies.lookup m = some deps) :
    ∀ d ∈ deps, d ∈ moduleNames cfg mods := by
  intro d hd
  have hmem : (m, deps) ∈ cfg.ModuleDependencies := by
    generalize cfg.ModuleDependencies = l at h
    induction l with
    | nil => simp at h
    | cons e r ih =>
      obtain ⟨k, v⟩ := e
      by_cases hk : m = k
      · subst hk
        simp only [List.lookup, beq_self_eq_true, Option.some.injEq] at h
        simp [h]
      · have h2 : (m == k) = false := by simpa using hk
        simp only [List.lookup, h2] at h
        exact List.mem_cons_of_mem _ (ih h)
  simp only [moduleNames, List.mem_append, List.mem_flatMap, List.mem_cons]
  exact Or.inr ⟨(m, deps), hmem, Or.inr hd⟩

theorem loadModuleIter_mono (cfg : InitConfig)
    (r1 r2 : WgId → List String → Registry → Option Registry)
    (hle : ∀ w l s t, r1 w l s = some t → r2 w l s = some t)
    (wg : WgId) (s t : Registry) (m : String)
    (h : loadModuleIter cfg r1 wg s m = some t) : loadModuleIter cfg r2 wg s m = some t := by
  unfold loadModuleIter at h ⊢
  by_cases h1 : m ∈ s.loadedModules
  · simpa only [h1, if_true] using h
  · simp only [h1, if_false] at h ⊢
    cases h2 : (s.loadingModules.lookup m).isSome with
    | true => simpa only [h2, if_true] using h
    | false =>
      simp only [h2, Bool.false_eq_true, if_false] at h ⊢
      cases hd : cfg.ModuleDependencies.lookup m with
      | none => simpa only [hd] using h
      | some deps =>
        simp only [hd, Option.map_eq_some'] at h ⊢
        obtain ⟨s3, h4, h5⟩ := h
        exact ⟨s3, hle _ _ _ _ h4, h5⟩

theorem foldlM_iter_mono (cfg : InitConfig)
    (r1 r2 : WgId → List String → Registry → Option Registry)
    (hle : ∀ w l s t, r1 w l s = some t → r2 w l s = some t)
    (wg : WgId) (mods : List String) (s t : Registry)
    (h : mods.foldlM (loadModuleIter cfg r1 wg) s = some t) :
    mods.foldlM (loadModuleIter cfg r2 wg) s = some t := by
  induction mods generalizing s with
  | nil => simpa using h
  | cons m rest ih =>
    simp only [List.foldlM_cons, bind, Option.bind_eq_some] at h ⊢
    obtain ⟨s1, h1, h2⟩ := h
    exact ⟨s1, loadModuleIter_mono cfg r1 r2 hle wg s s1 m h1, ih s1 h2⟩

/-- More fuel does not change the result of a call that returned. -/
theorem loadModuleUnlocked_fuel_succ (cfg : InitConfig) (fuel : Nat) :
    ∀ wg mods s t, loadModuleUnlocked cfg fuel wg mods s = some t →
      loadModuleUnlocked cfg (fuel + 1) wg mods s = some t := by
  induction fuel with
  | zero => intro wg mods s t h; simp [loadModuleUnlocked] at h
  | succ n ih =>
    intro wg mods s t h
    rw [loadModuleUnlocked] at h ⊢
    exact foldlM_iter_mono cfg _ _ ih wg mods s t h

theorem loadModuleUnlocked_fuel_le (cfg : InitConfig) (f1 f2 : Nat) (hle : f1 ≤ f2)
    (wg : WgId) (mods : List String) (s t : Registry)
    (h : loadModuleUnlocked cfg f1 wg mods s = some t) :
    loadModuleUnlocked cfg f2 wg mods s = some t := by
  induction hle with
  | refl => exact h
  | step _ ih => exact loadModuleUnlocked_fuel_succ cfg _ wg mods s t ih

theorem unknown_subset (U : List String) (s t : Registry)
    (hl : ∀ x, x ∈ s.loadedModules → x ∈ t.loadedModules)
    (hk : ∀ x, x ∈ keys s.loadingModules → x ∈ keys t.loadingModules) :
    unknown U t ⊆ unknown U s := by
  intro x hx
  simp only [unknown, Finset.mem_filter, List.mem_toFinset] at hx ⊢
  exact ⟨hx.1, fun h => hx.2.1 (hl x h), fun h => hx.2.2 (hk x h)⟩

theorem unknown_attach_lt (U : List String) (s : Registry) (m : String) (wg : WgId)
    (hU : m ∈ U) (h1 : m ∉ s.loadedModules) (h2 : m ∉ keys s.loadingModules) :
    (unknown U (newWaitGroup (attach s m wg))).card < (unknown U s).card := by
  apply Finset.card_lt_card
  rw [Finset.ssubset_iff_of_subset]
  · refine ⟨m, ?_, ?_⟩
    · simp only [unknown, Finset.mem_filter, List.mem_toFinset]
      exact ⟨hU, h1, h2⟩
    · simp only [unknown, Finset.mem_filter, List.mem_toFinset, newWaitGroup, attach,
        mem_keys_setEntry]
      tauto
  · exact unknown_subset U _ _ (fun x h => h)
      (fun x h => by simp only [newWaitGroup, attach, mem_keys_setEntry]; exact Or.inr h)

/-- With fuel above the number of module names still unknown, the call returns; it only
appends goroutines, each for a module that was unknown at entry, and at most as many as
unknown names disappear. -/
theorem loadModuleUnlocked_returns (cfg : InitConfig) (U : List String)
    (hU : ∀ m deps, cfg.ModuleDependencies.lookup m = some deps → ∀ d ∈ deps, d ∈ U)
    (fuel : Nat) :
    ∀ (wg : WgId) (mods : List String) (s : Registry), (∀ m ∈ mods, m ∈ U) →
      (unknown U s).card < fuel →
      ∃ t new, loadModuleUnlocked cfg fuel wg mods s = some t ∧
        t.tasks = s.tasks ++ new ∧
        new.length + (unknown U t).card ≤ (unknown U s).card ∧
        unknown U t ⊆ unknown U s ∧
        ∀ x ∈ new, x.mod ∈ unknown U s := by
  induction fuel with
  | zero => intro wg mods s _ h; omega
  | succ n ih =>
    intro wg mods
    induction mods with
    | nil =>
      intro s _ _
      exact ⟨s, [], by simp [loadModuleUnlocked], by simp, by simp, subset_refl _, by simp⟩
    | cons m rest ihl =>
      intro s hmods hcard
      have hm : m ∈ U := hmods m (by simp)
      have hrest : ∀ k ∈ rest, k ∈ U := fun k hk => hmods k (List.mem_cons_of_mem _ hk)
      -- one iteration
      have hiter : ∃ s1 new1, loadModuleIter cfg (loadModuleUnlocked cfg n) wg s m = some s1 ∧
          s1.tasks = s.tasks ++ new1 ∧
          new1.length + (unknown U s1).card ≤ (unknown U s).card ∧
          unknown U s1 ⊆ unknown U s ∧ ∀ x ∈ new1, x.mod ∈ unknown U s := by
        unfold loadModuleIter
        by_cases h1 : m ∈ s.loadedModules
        · exact ⟨s, [], by simp [h1], by simp, by simp, subset_refl _, by simp⟩
        · simp only [h1, if_false]
          cases h2 : (s.loadingModules.lookup m).isSome with
          | true =>
            have hsub : unknown U (attach s m wg) ⊆ unknown U s :=
              unknown_subset U _ _ (fun x h => h) (grows_attach s m wg).keys_mono
            exact ⟨attach s m wg, [], by simp, by simp [attach],
              by simpa using Finset.card_le_card hsub, hsub, by simp⟩
          | false =>
            have h3 : m ∉ keys s.loadingModules := fun hk => by
              have := (lookup_isSome_iff _ _).mpr hk
              simp [h2] at this
            have hlt := unknown_attach_lt U s m wg hm h1 h3
            have hmu : m ∈ unknown U s := by
              simp only [unknown, Finset.mem_filter, List.mem_toFinset]
              exact ⟨hm, h1, h3⟩
            simp only [Bool.false_eq_true, if_false]
            have hsub2 : unknown U (newWaitGroup (attach s m wg)) ⊆ unknown U s :=
              unknown_subset U _ _ (fun x h => h)
                (fun x h => by simp only [newWaitGroup, attach, mem_keys_setEntry]; exact Or.inr h)
            cases hd : cfg.ModuleDependencies.lookup m with
            | none =>
              refine ⟨spawn (newWaitGroup (attach s m wg)) m s.nextWg,
                [{ mod := m, depsWg := s.nextWg, phase := Phase.waiting }], by simp [attach],
                by simp [spawn, newWaitGroup, attach], ?_, hsub2, by simpa using hmu⟩
              have : unknown U (spawn (newWaitGroup (attach s m wg)) m s.nextWg)
                  = unknown U (newWaitGroup (attach s m wg)) := rfl
              rw [this]
              simp only [List.length_singleton]
              omega
            | some deps =>
              obtain ⟨s3, new3, hr, ht, hc, hs, hn⟩ :=
                ih s.nextWg deps (newWaitGroup (attach s m wg)) (hU m deps hd) (by omega)
              refine ⟨spawn s3 m s.nextWg,
                new3 ++ [{ mod := m, depsWg := s.nextWg, phase := Phase.waiting }],
                by
                  have hnw : (attach s m wg).nextWg = s.nextWg := rfl
                  simp only [hnw, hr, Option.map_some'],
                by simp [spawn, ht, newWaitGroup, attach], ?_, ?_, ?_⟩
              · have : unknown U (spawn s3 m s.nextWg) = unknown U s3 := rfl
                rw [this]
                simp only [List.length_append, List.length_singleton]
                omega
              · exact hs.trans hsub2
              · intro x hx
                simp only [List.mem_append, List.mem_singleton] at hx
                rcases hx with hx | hx
                · exact hsub2 (hn x hx)
                · subst hx; exact hmu
      obtain ⟨s1, new1, hr1, ht1, hc1, hs1, hn1⟩ := hiter
      obtain ⟨t, new2, hr2, ht2, hc2, hs2, hn2⟩ := ihl s1 hrest (by omega)
      refine ⟨t, new1 ++ new2, ?_, by simp [ht2, ht1], ?_, hs2.trans hs1, ?_⟩
      · simp only [loadModuleUnlocked, List.foldlM_cons, bind, hr1, Option.some_bind]
        simpa only [loadModuleUnlocked] using hr2
      · simp only [List.length_append]
        omega
      · intro x hx
        simp only [List.mem_append] at hx
        rcases hx with hx | hx
        · exact hn1 x hx
        · exact hs1 (hn2 x hx)

theorem card_unknown_le (U : List String) (s : Registry) :
    (unknown U s).card ≤ U.dedup.length := by
  have h1 : (unknown U s).card ≤ U.toFinset.card := Finset.card_filter_le _ _
  rw [List.card_toFinset] at h1
  exact h1

/-! ### Modules that hang, and wait groups that cover a request -/

theorem stuck_not_enabled (cfg : InitConfig) (S : List String) (u : Registry) (x : Task)
    (hinv : Inv cfg u) (hst : Stuck S u) (hx : x ∈ u.tasks) (hS : x.mod ∈ S)
    (hen : (x.phase = Phase.waiting ∧ u.counter x.depsWg = 0) ∨ x.phase = Phase.inserting ∨
      x.phase = Phase.inserted) : False := by
  rcases hst.blocked x hx hS with h1 | ⟨h1, d, _, h2⟩
  · rcases hen with ⟨h3, _⟩ | h3 | h3 <;> rw [h1] at h3 <;> cases h3
  · rcases hen with ⟨_, h3⟩ | h3 | h3
    · have h4 := occ_pos_of_mem_waiters _ _ _ h2
      have h5 := hinv.counter_eq x.depsWg
      rw [h3] at h5
      omega
    · rw [h1] at h3; cases h3
    · rw [h1] at h3; cases h3

theorem stuckSince_step (cfg : InitConfig) (S : List String) (s : Registry) (a : Action)
    (u v : Registry) (hstep : step cfg a u = some v) (h : StuckSince cfg S s u) :
    StuckSince cfg S s v := by
  have hinv := inv_step cfg a u v hstep h.inv
  cases a with
  | request mods =>
    simp only [step, Option.map_eq_some'] at hstep
    obtain ⟨⟨wg, v1⟩, h1, h2⟩ := hstep
    simp only at h2
    subst h2
    obtain ⟨_, g, _⟩ := inv_loadModules cfg mods u v1 wg h1 h.inv
    exact
      { inv := hinv
        stuck :=
          { inLoading := fun m hm => g.keys_mono m (h.stuck.inLoading m hm)
            blocked := fun x hx hS => by
              rcases g.tasks_new x hx with h3 | ⟨_, _, h5⟩
              · rcases h.stuck.blocked x h3 hS with h6 | ⟨h6, d, hd, h7⟩
                · exact Or.inl h6
                · exact Or.inr ⟨h6, d, hd, g.waiters_mono d _ h7⟩
              · exact absurd (h.stuck.inLoading _ hS) h5 }
        waiters_kept := fun m hm w hw => g.waiters_mono m w (h.waiters_kept m hm w hw)
        began_old := fun m hm hb => by
          rcases g.log_new _ hb with h3 | ⟨k, h3⟩
          · exact h.began_old m hm h3
          · cases h3 }
  | begin i =>
    obtain ⟨x, hx, hph, hzero, rfl⟩ := taskBegin_eq i u v hstep
    have hxmem : x ∈ u.tasks := mem_of_get? _ _ _ hx
    have hxS : x.mod ∉ S := fun hS =>
      stuck_not_enabled cfg S u x h.inv h.stuck hxmem hS (Or.inl ⟨hph, hzero⟩)
    exact
      { inv := hinv
        stuck :=
          { inLoading := h.stuck.inLoading
            blocked := fun y hy hS => by
              rcases mem_setPhase _ _ _ _ hy with h1 | ⟨z, hz, h2⟩
              · exact h.stuck.blocked y h1 hS
              · subst h2
                have : z = x := by rw [hx] at hz; exact (Option.some.inj hz).symm
                subst this
                exact absurd hS hxS }
        waiters_kept := h.waiters_kept
        began_old := fun m hm hb => by
          simp only [List.mem_cons, Event.began.injEq] at hb
          rcases hb with hb | hb
          · subst hb; exact absurd hm hxS
          · exact h.began_old m hm hb }
  | finit i ok =>
    obtain ⟨x, hx, hph, rfl⟩ := taskFinit_eq i ok u v hstep
    have hxmem : x ∈ u.tasks := mem_of_get? _ _ _ hx
    have hxS : x.mod ∉ S := fun hS =>
      stuck_not_enabled cfg S u x h.inv h.stuck hxmem hS (Or.inr (Or.inl hph))
    exact
      { inv := hinv
        stuck :=
          { inLoading := h.stuck.inLoading
            blocked := fun y hy hS => by
              rcases mem_setPhase _ _ _ _ hy with h1 | ⟨z, hz, h2⟩
              · exact h.stuck.blocked y h1 hS
              · subst h2
                have : z = x := by rw [hx] at hz; exact (Option.some.inj hz).symm
                subst this
                exact absurd hS hxS }
        waiters_kept := h.waiters_kept
        began_old := fun m hm hb => by
          simp only [List.mem_cons] at hb
          rcases hb with hb | hb
          · cases ok <;> cases hb
          · exact h.began_old m hm hb }
  | complete i =>
    obtain ⟨x, hx, hph, rfl⟩ := taskComplete_eq i u v hstep
    have hxmem : x ∈ u.tasks := mem_of_get? _ _ _ hx
    have hxS : x.mod ∉ S := fun hS =>
      stuck_not_enabled cfg S u x h.inv h.stuck hxmem hS (Or.inr (Or.inr hph))
    have hw : ∀ m ∈ S, waiters (deleteEntry u.loadingModules x.mod) m
        = waiters u.loadingModules m := by
      intro m hm
      have : m ≠ x.mod := fun hmx => hxS (hmx ▸ hm)
      simp [waiters_deleteEntry, this]
    exact
      { inv := hinv
        stuck :=
          { inLoading := fun m hm => by
              have : m ≠ x.mod := fun hmx => hxS (hmx ▸ hm)
              exact (mem_keys_deleteEntry _ _ _).mpr ⟨this, h.stuck.inLoading m hm⟩
            blocked := fun y hy hS => by
              rcases mem_setPhase _ _ _ _ hy with h1 | ⟨z, hz, h2⟩
              · rcases h.stuck.blocked y h1 hS with h6 | ⟨h6, d, hd, h7⟩
                · exact Or.inl h6
                · refine Or.inr ⟨h6, d, hd, ?_⟩
                  show y.depsWg ∈ waiters (deleteEntry u.loadingModules x.mod) d
                  rw [hw d hd]; exact h7
              · subst h2
                have : z = x := by rw [hx] at hz; exact (Option.some.inj hz).symm
                subst this
                exact absurd hS hxS }
        waiters_kept := fun m hm w hw2 => by
          show w ∈ waiters (deleteEntry u.loadingModules x.mod) m
          rw [hw m hm]; exact h.waiters_kept m hm w hw2
        began_old := fun m hm hb => by
          simp only [List.mem_cons] at hb
          rcases hb with hb | hb
          · cases hb
          · exact h.began_old m hm hb }

/-- Modules that hang keep hanging: whatever steps follow, they stay in `loadingModules`,
none of their goroutines moves, and every wait group attached to them stays attached. -/
theorem stuck_later (cfg : InitConfig) (S : List String) (s u : Registry)
    (hinv : Inv cfg s) (hst : Stuck S s) (hl : Later cfg s u) : StuckSince cfg S s u :=
  later_induct cfg (StuckSince cfg S s)
    (fun a v w hs hk => stuckSince_step cfg S s a v w hs hk) s u hl
    ⟨hinv, hst, fun _ _ _ h => h, fun _ _ h => h⟩

/-- A wait group attached to a hanging module is never released. -/
theorem stuck_counter_pos (cfg : InitConfig) (S : List String) (s u : Registry)
    (hinv : Inv cfg s) (hst : Stuck S s) (hl : Later cfg s u) (m : String) (hm : m ∈ S)
    (w : WgId) (hw : w ∈ waiters s.loadingModules m) : 0 < u.counter w := by
  have h := stuck_later cfg S s u hinv hst hl
  have h1 := occ_pos_of_mem_waiters _ _ _ (h.waiters_kept m hm w hw)
  have h2 := h.inv.counter_eq w
  omega

theorem covered_step (cfg : InitConfig) (names : List String) (wg : WgId) (a : Action)
    (u v : Registry) (hstep : step cfg a u = some v)
    (h : Inv cfg u ∧ Covered names wg u) : Inv cfg v ∧ Covered names wg v := by
  refine ⟨inv_step cfg a u v hstep h.1, ?_⟩
  cases a with
  | request mods =>
    simp only [step, Option.map_eq_some'] at hstep
    obtain ⟨⟨wg1, v1⟩, h1, h2⟩ := hstep
    simp only at h2
    subst h2
    obtain ⟨_, g, _⟩ := inv_loadModules cfg mods u v1 wg1 h1 h.1
    intro n hn
    rcases h.2 n hn with h3 | h3
    · exact Or.inl (g.loaded_eq ▸ h3)
    · exact Or.inr (g.waiters_mono n wg h3)
  | begin i =>
    obtain ⟨x, _, _, _, rfl⟩ := taskBegin_eq i u v hstep
    exact h.2
  | finit i ok =>
    obtain ⟨x, _, _, rfl⟩ := taskFinit_eq i ok u v hstep
    exact h.2
  | complete i =>
    obtain ⟨x, _, _, rfl⟩ := taskComplete_eq i u v hstep
    intro n hn
    by_cases hnx : n = x.mod
    · exact Or.inl (by simp [hnx])
    · rcases h.2 n hn with h3 | h3
      · exact Or.inl (List.mem_cons_of_mem _ h3)
      · refine Or.inr ?_
        show wg ∈ waiters (deleteEntry u.loadingModules x.mod) n
        simp only [waiters_deleteEntry, hnx, if_false]
        exact h3

/-! ## Alias table: `matchAlias`, `readAliases` -/

theorem matchAliasLoop_ok {E : Type} (pm : String → String → Except E Bool) (ident : String)
    (l : List Alias) (acc : List String)
    (h : ∀ a ∈ l, reportsError pm ident a = false) :
    matchAliasLoop pm ident l acc
      = (acc ++ (l.filter (aliasMatches pm ident)).map Alias.module, none) := by
  induction l generalizing acc with
  | nil => simp [matchAliasLoop]
  | cons a r ih =>
    have hr : ∀ b ∈ r, reportsError pm ident b = false :=
      fun b hb => h b (List.mem_cons_of_mem _ hb)
    have ha := h a (List.mem_cons_self _ _)
    cases hpm : pm a.pattern ident with
    | error e => simp [reportsError, hpm] at ha
    | ok b =>
      cases b with
      | true => simp [matchAliasLoop, hpm, aliasMatches, ih _ hr]
      | false => simp [matchAliasLoop, hpm, aliasMatches, ih _ hr]

theorem matchAliasLoop_first_error {E : Type} (pm : String → String → Except E Bool)
    (ident : String) (pre : List Alias) (a : Alias) (post : List Alias) (e : E)
    (acc : List String)
    (hpre : ∀ b ∈ pre, reportsError pm ident b = false)
    (ha : pm a.pattern ident = .error e) :
    matchAliasLoop pm ident (pre ++ a :: post) acc = ([], some e) := by
  induction pre generalizing acc with
  | nil => simp [matchAliasLoop, ha]
  | cons b r ih =>
    have hr : ∀ c ∈ r, reportsError pm ident c = false :=
      fun c hc => hpre c (List.mem_cons_of_mem _ hc)
    have hb := hpre b (List.mem_cons_self _ _)
    cases hpm : pm b.pattern ident with
    | error e1 => simp [reportsError, hpm] at hb
    | ok v =>
      cases v with
      | true => simp [matchAliasLoop, hpm, ih _ hr]
      | false => simp [matchAliasLoop, hpm, ih _ hr]

theorem matchAliasLoop_error {E : Type} (pm : String → String → Except E Bool)
    (ident : String) (l : List Alias) (acc : List String)
    (h : ∃ a ∈ l, reportsError pm ident a = true) :
    ∃ e1, matchAliasLoop pm ident l acc = ([], some e1) := by
  induction l generalizing acc with
  | nil => simp at h
  | cons a r ih =>
    cases hpm : pm a.pattern ident with
    | error e => exact ⟨e, by simp [matchAliasLoop, hpm]⟩
    | ok v =>
      have hr : ∃ b ∈ r, reportsError pm ident b = true := by
        obtain ⟨b, hb, he⟩ := h
        simp only [List.mem_cons] at hb
        rcases hb with hb | hb
        · subst hb; simp [reportsError, hpm] at he
        · exact ⟨b, hb, he⟩
      cases v with
      | true =>
        obtain ⟨e1, h1⟩ := ih (acc ++ [a.module]) hr
        exact ⟨e1, by simp [matchAliasLoop, hpm, h1]⟩
      | false =>
        obtain ⟨e1, h1⟩ := ih acc hr
        exact ⟨e1, by simp [matchAliasLoop, hpm, h1]⟩

theorem splitSpace_of_no_space (l : List Char) (h : ' ' ∉ l) : splitSpace l = [l] := by
  induction l with
  | nil => rfl
  | cons c r ih =>
    simp only [List.mem_cons, not_or] at h
    have hc : c ≠ ' ' := fun hc => h.1 hc.symm
    simp [splitSpace, hc, ih h.2]

theorem splitSpace_record (p m : List Char) (hp : ' ' ∉ p) (hm : ' ' ∉ m) :
    splitSpace (p ++ ' ' :: m) = [p, m] := by
  induction p with
  | nil => simp [splitSpace, splitSpace_of_no_space m hm]
  | cons c r ih =>
    simp only [List.mem_cons, not_or] at hp
    have hc : c ≠ ' ' := fun hc => hp.1 hc.symm
    simp [splitSpace, hc, ih hp.2]

theorem splitSpace_two_fields (l : List Char) (h : ' ' ∈ l) :
    ∃ p0 p1 rest, splitSpace l = p0 :: p1 :: rest := by
  induction l with
  | nil => simp at h
  | cons c r ih =>
    by_cases hc : c = ' '
    · subst hc
      cases hr : splitSpace r with
      | nil =>
        exfalso
        cases r with
        | nil => simp [splitSpace] at hr
        | cons d q =>
          simp only [splitSpace] at hr
          split at hr
          · cases hr
          · split at hr <;> cases hr
      | cons f fs => exact ⟨[], f, fs, by simp [splitSpace, hr]⟩
    · have hr : ' ' ∈ r := by
        simp only [List.mem_cons] at h
        rcases h with h | h
        · exact absurd h.symm hc
        · exact h
      obtain ⟨p0, p1, rest, h1⟩ := ih hr
      exact ⟨c :: p0, p1, rest, by simp [splitSpace, hc, h1]⟩

theorem readAliasesLoop_two_fields (lines : List String) (aliases : List Alias)
    (h : ∀ line ∈ lines, ' ' ∈ line.toList) :
    readAliasesLoop lines aliases = some (aliases ++ lines.map aliasOfLine) := by
  induction lines generalizing aliases with
  | nil => simp [readAliasesLoop]
  | cons line rest ih =>
    obtain ⟨p0, p1, fs, h1⟩ := splitSpace_two_fields line.toList (h line (List.mem_cons_self _ _))
    have h2 : aliasOfLine line = ⟨String.mk p0, String.mk p1⟩ := by
      unfold aliasOfLine
      rw [h1]
      rfl
    simp only [readAliasesLoop, h1, List.map_cons, h2]
    rw [ih _ (fun l hl => h l (List.mem_cons_of_mem _ hl))]
    simp

/-- C5. `matchAlias` accumulates all matches in table order: when no pattern of the table
is reported malformed for the identifier, the result is the list of the `module` fields of
exactly the entries whose pattern matches, in table order, with a nil error; on the spec's
example table and the identifier `usb:v1234p5678` the result is `usbmod, genericusb`. -/
theorem matchAlias_accumulates_in_table_order {E : Type}
    (pm : String → String → Except E Bool) (aliases : List Alias) (ident : String)
    (hwf : ∀ a ∈ aliases, reportsError pm ident a = false) :
    matchAlias pm aliases ident
        = ((aliases.filter (aliasMatches pm ident)).map Alias.module, none) ∧
      matchAlias pathMatch exampleAliases "usb:v1234p5678"
        = (["usbmod", "genericusb"], none) := by
  refine ⟨?_, by decide⟩
  have := matchAliasLoop_ok pm ident aliases [] hwf
  simpa [matchAlias] using this

/-- C5 on the spec's example: no pattern is malformed, and the result is the filtered
table. -/
theorem matchAlias_accumulates_witness :
    (∀ a ∈ exampleAliases, reportsError pathMatch "usb:v1234p5678" a = false) ∧
    matchAlias pathMatch exampleAliases "usb:v1234p5678"
      = ((exampleAliases.filter (aliasMatches pathMatch "usb:v1234p5678")).map Alias.module,
          none) :=
  ⟨by decide,
    (matchAlias_accumulates_in_table_order pathMatch exampleAliases "usb:v1234p5678"
      (by decide)).1⟩

/-- C6, as the code has it: `matchAlias` does not deduplicate. When no pattern is
malformed, a module name occurs in the result once for every table entry that names it and
whose pattern matches the identifier. -/
theorem matchAlias_one_name_per_matching_entry {E : Type}
    (pm : String → String → Except E Bool) (aliases : List Alias) (ident : String)
    (hwf : ∀ a ∈ aliases, reportsError pm ident a = false) (m : String) :
    (matchAlias pm aliases ident).1.count m
      = aliases.countP (fun a => a.module == m && aliasMatches pm ident a) := by
  have h := matchAliasLoop_ok pm ident aliases [] hwf
  simp only [matchAlias, h, List.nil_append]
  rw [List.count_eq_countP, List.countP_map, List.countP_filter]
  rfl

/-- C6 as the code has it, on a table naming `usbcore` twice. -/
theorem matchAlias_one_name_per_matching_entry_witness :
    (matchAlias pathMatch duplicateAliases "usb:v1234p5678").1.count "usbcore"
      = duplicateAliases.countP
          (fun a => a.module == "usbcore" && aliasMatches pathMatch "usb:v1234p5678" a) :=
  matchAlias_one_name_per_matching_entry pathMatch duplicateAliases "usb:v1234p5678"
    (by decide) "usbcore"

/-- C6 as stated fails: two matching entries that name the same module give the name
twice. -/
theorem matchAlias_returns_duplicates :
    matchAlias pathMatch duplicateAliases "usb:v1234p5678" = (["usbcore", "usbcore"], none) ∧
      ¬ (matchAlias pathMatch duplicateAliases "usb:v1234p5678").1.Nodup := by
  decide

/-- C7. `matchAlias` is fail-fast: if `path.Match` reports an error for some entry, the
result is the nil list together with an error, namely the error of the first such entry,
whatever matched before it; and the error is nil exactly when no entry is reported
malformed. -/
theorem matchAlias_fail_fast {E : Type} (pm : String → String → Except E Bool)
    (aliases : List Alias) (ident : String) :
    ((∃ a ∈ aliases, reportsError pm ident a = true) →
        ∃ e1, matchAlias pm aliases ident = ([], some e1)) ∧
      (∀ pre a post e, aliases = pre ++ a :: post →
        (∀ b ∈ pre, reportsError pm ident b = false) →
        pm a.pattern ident = .error e → matchAlias pm aliases ident = ([], some e)) ∧
      ((matchAlias pm aliases ident).2 = none ↔
        ∀ a ∈ aliases, reportsError pm ident a = false) := by
  refine ⟨fun h => matchAliasLoop_error pm ident aliases [] h, ?_, ?_⟩
  · intro pre a post e hsplit hpre ha
    rw [hsplit]
    exact matchAliasLoop_first_error pm ident pre a post e [] hpre ha
  · constructor
    · intro hnone a ha
      cases he : reportsError pm ident a with
      | false => rfl
      | true =>
        obtain ⟨e1, h1⟩ := matchAliasLoop_error pm ident aliases [] ⟨a, ha, he⟩
        simp only [matchAlias] at hnone
        rw [h1] at hnone
        cases hnone
    · intro hwf
      simp [matchAlias, matchAliasLoop_ok pm ident aliases [] hwf]

/-- C7 on a table whose second pattern is malformed: the match of the first entry is
dropped. -/
theorem matchAlias_fail_fast_witness :
    matchAlias pathMatch malformedAliases "usb:v1234p5678"
      = ([], some PatternError.ErrBadPattern) :=
  (matchAlias_fail_fast pathMatch malformedAliases "usb:v1234p5678").2.1
    [{ pattern := "usb:*", module := "genericusb" }] { pattern := "usb:[", module := "broken" }
    [] PatternError.ErrBadPattern rfl (by decide) (by decide)

/-- C9, as the code has it: `readAliases` does not validate the lines. When every line
has at least two space-separated fields it returns the scanner's error (nil for a readable
source) and appends one entry per line, in file order, made of the first two fields;
for a two-field record `pattern module` that entry is `(pattern, module)`. -/
theorem readAliases_appends_first_two_fields {E : Type} (lines : List String)
    (scanErr : Option E) (aliases : List Alias)
    (h : ∀ line ∈ lines, ' ' ∈ line.toList) :
    readAliases (.ok (lines, scanErr)) aliases
        = .returned (aliases ++ lines.map aliasOfLine) scanErr ∧
      ∀ r : List Char × List Char, ' ' ∉ r.1 → ' ' ∉ r.2 →
        aliasOfLine (recordLine r) = { pattern := String.mk r.1, module := String.mk r.2 } := by
  constructor
  · simp [readAliases, readAliasesLoop_two_fields lines aliases h]
  · intro r h1 h2
    simp [aliasOfLine, recordLine, splitSpace_record r.1 r.2 h1 h2]

/-- C9 as the code has it, on a source of two two-field records. -/
theorem readAliases_appends_witness :
    readAliases (.ok (["usb:v1234* usbmod", "usb:* genericusb"], (none : Option Unit))) []
      = .returned exampleAliases none := by
  have h := (readAliases_appends_first_two_fields ["usb:v1234* usbmod", "usb:* genericusb"]
    (none : Option Unit) [] (by decide)).1
  rw [h]
  decide

/-- C9 as stated fails: a line without a space makes `readAliases` abort on `parts[1]`
instead of returning an error, and a line with three fields is accepted. -/
theorem readAliases_no_validation :
    readAliases (.ok (["usbmod"], (none : Option Unit))) [] = .panicked ∧
      readAliases (.ok ([""], (none : Option Unit))) [] = .panicked ∧
      readAliases (.ok (["usb:* genericusb extra"], (none : Option Unit))) []
        = .returned [{ pattern := "usb:*", module := "genericusb" }] none := by
  decide

/-! ## Registry: the claims -/

theorem run_append (cfg : InitConfig) (a1 a2 : List Action) (s : Registry) :
    run cfg (a1 ++ a2) s = (run cfg a1 s).bind (run cfg a2) := by
  induction a1 generalizing s with
  | nil => simp [run_nil]
  | cons a r ih =>
    simp only [List.cons_append, run_cons]
    cases step cfg a s with
    | none => simp
    | some u => simp [ih]

theorem reachable_stateAfter (cfg : InitConfig) (acts : List Action)
    (h : (run cfg acts Registry.init).isSome = true) : Reachable cfg (stateAfter cfg acts) := by
  refine ⟨acts, ?_⟩
  unfold stateAfter
  cases hr : run cfg acts Registry.init with
  | none => simp [hr] at h
  | some u => simp

theorem later_stateAfter (cfg : InitConfig) (a1 a2 : List Action)
    (h : (run cfg (a1 ++ a2) Registry.init).isSome = true) :
    Later cfg (stateAfter cfg a1) (stateAfter cfg (a1 ++ a2)) := by
  refine ⟨a2, ?_⟩
  unfold stateAfter
  rw [run_append] at h ⊢
  cases hr : run cfg a1 Registry.init with
  | none => simp [hr] at h
  | some u =>
    simp only [hr, Option.some_bind, Option.getD_some] at h ⊢
    cases hr2 : run cfg a2 u with
    | none => simp [hr2] at h
    | some v => simp

/-- C1. At most one load per module: in every reachable state the history holds at most
one spawn of a load goroutine per module name and at most one goroutine exists per name; a
request for a module that is in `loadingModules` only attaches the caller's wait group (one
`Add`, one more waiter at the end of the list, no goroutine, no event); a request for a
module that is in `loadedModules` changes nothing, the caller's counter included. -/
theorem at_most_one_load_per_module (cfg : InitConfig) (s : Registry)
    (hs : Reachable cfg s) (M : String) (wg : WgId) (fuel : Nat) :
    s.log.count (Event.spawned M) ≤ 1 ∧
      s.tasks.countP (fun t => t.mod = M) ≤ 1 ∧
      (M ∈ keys s.loadingModules →
        ∃ t, loadModuleUnlocked cfg (fuel + 1) wg [M] s = some t ∧
          t.tasks = s.tasks ∧ t.log = s.log ∧ t.loadedModules = s.loadedModules ∧
          waiters t.loadingModules M = waiters s.loadingModules M ++ [wg] ∧
          (∀ k, k ≠ M → waiters t.loadingModules k = waiters s.loadingModules k) ∧
          t.counter wg = s.counter wg + 1 ∧ (∀ w, w ≠ wg → t.counter w = s.counter w)) ∧
      (M ∈ s.loadedModules → loadModuleUnlocked cfg (fuel + 1) wg [M] s = some s) := by
  have hinv := inv_reachable cfg s hs
  refine ⟨hinv.spawnedOnce M, ?_, ?_, ?_⟩
  · rw [hinv.tasksLog M]; exact hinv.spawnedOnce M
  · intro hM
    have hnl : M ∉ s.loadedModules := fun h => hinv.disjoint M h hM
    have hsome : (s.loadingModules.lookup M).isSome = true := (lookup_isSome_iff _ _).mpr hM
    refine ⟨attach s M wg, ?_, rfl, rfl, rfl, ?_, ?_, ?_, ?_⟩
    · simp [loadModuleUnlocked, loadModuleIter, hnl, hsome]
    · simp [attach, waiters_setEntry]
    · intro k hk
      simp [attach, waiters_setEntry, hk]
    · simp [attach, wgAdd]
    · intro w hw
      simp [attach, wgAdd, hw]
  · intro hM
    simp [loadModuleUnlocked, loadModuleIter, hM]

/-- C1 at concrete states: after two requests on the cyclic map `A` was spawned once; a
further request for `A`, which is loading, attaches wait group 7; a request for `B` once it
is loaded changes nothing. -/
theorem at_most_one_load_per_module_witness :
    (stateAfter cyclicConfig [Action.request ["A"], Action.request ["B", "A"]]).log.count
        (Event.spawned "A") ≤ 1 ∧
      (∃ t, loadModuleUnlocked cyclicConfig 1 7 ["A"]
            (stateAfter cyclicConfig [Action.request ["A"]]) = some t ∧
          t.tasks = (stateAfter cyclicConfig [Action.request ["A"]]).tasks ∧
          waiters t.loadingModules "A"
            = waiters (stateAfter cyclicConfig [Action.request ["A"]]).loadingModules "A"
                ++ [7]) ∧
      loadModuleUnlocked pairConfig 1 7 ["B"] (stateAfter pairConfig pairRun)
        = some (stateAfter pairConfig pairRun) := by
  refine ⟨(at_most_one_load_per_module cyclicConfig
      (stateAfter cyclicConfig [Action.request ["A"], Action.request ["B", "A"]])
      (reachable_stateAfter _ _ (by decide)) "A" 0 0).1, ?_, ?_⟩
  · obtain ⟨t, h1, h2, _, _, h5, _⟩ :=
      (at_most_one_load_per_module cyclicConfig (stateAfter cyclicConfig [Action.request ["A"]])
        (reachable_stateAfter _ _ (by decide)) "A" 7 0).2.2.1 (by decide)
    exact ⟨t, h1, h2, h5⟩
  · exact (at_most_one_load_per_module pairConfig (stateAfter pairConfig pairRun)
      (reachable_stateAfter _ _ (by decide)) "B" 7 0).2.2.2 (by decide)

/-- C2. Dependency before dependent: in the history of every reachable state (newest event
first), wherever `finitModule(M)` was entered, every transitive prerequisite `P` of `M` has
by then entered `finitModule`, returned from it without error and run its completion
section. -/
theorem dependency_before_dependent (cfg : InitConfig) (s : Registry)
    (hs : Reachable cfg s) (post pre : List Event) (M P : String)
    (hlog : s.log = post ++ Event.began M :: pre) (hP : Prereq cfg M P) :
    Event.began P ∈ pre ∧ Event.finitOk P ∈ pre ∧ Event.completed P ∈ pre :=
  (inv_reachable cfg s hs).ordered post pre M hlog P hP

/-- C2 on the chain `A -> B -> C`: when `finitModule(B)` is entered, `C` has completed. -/
theorem dependency_before_dependent_witness :
    (stateAfter chainConfig chainRun).log
        = [] ++ Event.began "B" ::
            [Event.completed "C", Event.finitOk "C", Event.began "C", Event.spawned "A",
              Event.spawned "B", Event.spawned "C"] ∧
      Event.completed "C" ∈
        [Event.completed "C", Event.finitOk "C", Event.began "C", Event.spawned "A",
          Event.spawned "B", Event.spawned "C"] :=
  ⟨by decide,
    (dependency_before_dependent chainConfig (stateAfter chainConfig chainRun)
      (reachable_stateAfter _ _ (by decide)) []
      [Event.completed "C", Event.finitOk "C", Event.began "C", Event.spawned "A",
        Event.spawned "B", Event.spawned "C"]
      "B" "C" (by decide)
      (Relation.TransGen.single (show "C" ∈ depsOf chainConfig "B" by decide))).2.2⟩

/-- C4. The handle of `loadModules` covers the closure: if `loadModules(names)` is called in
a reachable state `s` and returns the wait group `wg`, then in every later state `u` in
which the counter of `wg` is zero, every requested name and every transitive prerequisite
of one is in `loadedModules` and its `finitModule` has returned without error; it was
loaded at the call already, or its completion is not in the history of `s`, so happened
since. -/
theorem loadModules_handle_covers_closure (cfg : InitConfig) (s t u : Registry)
    (names : List String) (wg : WgId) (hs : Reachable cfg s)
    (hcall : loadModules cfg names s = some (wg, t)) (hl : Later cfg t u)
    (hz : u.counter wg = 0) (n : String) (hn : n ∈ names) (p : String)
    (hp : p = n ∨ Prereq cfg n p) :
    p ∈ u.loadedModules ∧ Event.finitOk p ∈ u.log ∧ Event.completed p ∈ u.log ∧
      (p ∈ s.loadedModules ∨ Event.completed p ∉ s.log) := by
  have hinv := inv_reachable cfg s hs
  obtain ⟨hinvt, _, hcov⟩ := inv_loadModules cfg names s t wg hcall hinv
  have hu : Inv cfg u ∧ Covered names wg u :=
    later_induct cfg (fun v => Inv cfg v ∧ Covered names wg v)
      (fun a v w hstep hv => covered_step cfg names wg a v w hstep hv) t u hl ⟨hinvt, hcov⟩
  have hnl : n ∈ u.loadedModules := by
    rcases hu.2 n hn with h1 | h1
    · exact h1
    · have h2 := occ_pos_of_mem_waiters _ _ _ h1
      have h3 := hu.1.counter_eq wg
      rw [hz] at h3
      omega
  have hpl : p ∈ u.loadedModules := by
    rcases hp with hp | hp
    · rw [hp]; exact hnl
    · exact prereq_loaded cfg _ n p (hu.1.loadedClosed n hnl) hu.1.loadedClosed hp
  refine ⟨hpl, (hu.1.loadedLog p hpl).2.1, (hu.1.loadedLog p hpl).2.2, ?_⟩
  by_cases h : p ∈ s.loadedModules
  · exact Or.inl h
  · exact Or.inr (fun hc => h (hinv.completedLoaded p hc))

/-- C4 for `A` with prerequisite `B`: once the handle of `loadModules("A")` is released, `B`
is loaded. -/
theorem loadModules_handle_covers_closure_witness :
    (stateAfter pairConfig pairRun).counter 0 = 0 ∧
      "B" ∈ (stateAfter pairConfig pairRun).loadedModules :=
  ⟨by decide,
    (loadModules_handle_covers_closure pairConfig Registry.init
      (stateAfter pairConfig [Action.request ["A"]]) (stateAfter pairConfig pairRun)
      ["A"] 0 ⟨[], rfl⟩ rfl
      (later_stateAfter pairConfig [Action.request ["A"]] pairRun.tail (by decide))
      (by decide) "A" (by decide) "B"
      (Or.inr (Relation.TransGen.single (show "B" ∈ depsOf pairConfig "A" by decide)))).1⟩

/-- C10. The recursion of `loadModuleUnlocked` terminates, for every dependency map (cyclic
ones included), every state, wait group and list of names: from a fuel above the number of
distinct module names of the request and the map on, the call returns one and the same
state; it only appends goroutines, at most as many as there are distinct names, each for a
module that was in neither `loadedModules` nor `loadingModules` at entry. -/
theorem loadModuleUnlocked_terminates (cfg : InitConfig) (s : Registry) (wg : WgId)
    (names : List String) :
    ∃ t new,
      (∀ fuel, (moduleNames cfg names).dedup.length < fuel →
        loadModuleUnlocked cfg fuel wg names s = some t) ∧
      t.tasks = s.tasks ++ new ∧
      new.length ≤ (moduleNames cfg names).dedup.length ∧
      (∀ x ∈ new, x.mod ∉ s.loadedModules ∧ x.mod ∉ keys s.loadingModules) ∧
      (loadModules cfg names s).isSome = true := by
  have hU := fun m deps h => deps_subset_moduleNames cfg names m deps h
  have hnames : ∀ m ∈ names, m ∈ moduleNames cfg names := fun m hm => by
    simp only [moduleNames, List.mem_append]
    exact Or.inl hm
  have hcard := card_unknown_le (moduleNames cfg names) s
  obtain ⟨t, new, hr, ht, hc, _, hn⟩ :=
    loadModuleUnlocked_returns cfg (moduleNames cfg names) hU
      ((moduleNames cfg names).dedup.length + 1) wg names s hnames (by omega)
  refine ⟨t, new, ?_, ht, by omega, ?_, ?_⟩
  · intro fuel hf
    exact loadModuleUnlocked_fuel_le cfg _ fuel (by omega) wg names s t hr
  · intro x hx
    have := hn x hx
    simp only [unknown, Finset.mem_filter, List.mem_toFinset] at this
    exact this.2
  · have hcard2 := card_unknown_le (moduleNames cfg names) (newWaitGroup s)
    have hlen : (moduleNames cfg names).dedup.length ≤ (moduleNames cfg names).length :=
      (List.dedup_sublist _).length_le
    obtain ⟨t2, _, hr2, _⟩ :=
      loadModuleUnlocked_returns cfg (moduleNames cfg names) hU
        ((moduleNames cfg names).length + 1) s.nextWg names (newWaitGroup s) hnames (by omega)
    simp [loadModules, hr2]

/-- C3 fails on the code. A goroutine whose `finitModule` fails returns without touching
the registry: no waiter is signalled and the module stays in `loadingModules`. For a module
`m` without dependencies, requested once: after the failure `m` is still in
`loadingModules` with the caller's wait group attached and its counter at one, `m` is not
loaded, a second request only attaches a further wait group to the dead attempt, and in
every later state the first handle is still unreleased. -/
theorem finit_failure_releases_nothing :
    (∀ i s t, taskFinit i false s = some t →
        t.loadingModules = s.loadingModules ∧ t.counter = s.counter ∧
          t.loadedModules = s.loadedModules) ∧
      (run plainConfig failingRun Registry.init).isSome = true ∧
      (stateAfter plainConfig failingRun).loadingModules = [("m", [0])] ∧
      (stateAfter plainConfig failingRun).counter 0 = 1 ∧
      (stateAfter plainConfig failingRun).loadedModules = [] ∧
      (stateAfter plainConfig failingRun).tasks
        = [{ mod := "m", depsWg := 1, phase := Phase.failed }] ∧
      (stateAfter plainConfig (failingRun ++ [Action.request ["m"]])).tasks
        = [{ mod := "m", depsWg := 1, phase := Phase.failed }] ∧
      (stateAfter plainConfig (failingRun ++ [Action.request ["m"]])).loadingModules
        = [("m", [0, 2])] ∧
      (∀ u, Later plainConfig (stateAfter plainConfig failingRun) u →
        0 < u.counter 0 ∧ "m" ∈ keys u.loadingModules ∧ "m" ∉ u.loadedModules) := by
  refine ⟨?_, by decide, by decide, by decide, by decide, by decide, by decide, by decide, ?_⟩
  · intro i s t h
    obtain ⟨x, _, _, rfl⟩ := taskFinit_eq i false s t h
    exact ⟨rfl, rfl, rfl⟩
  · intro u hl
    have hinv : Inv plainConfig (stateAfter plainConfig failingRun) :=
      inv_reachable _ _ (reachable_stateAfter _ _ (by decide))
    have hst : Stuck ["m"] (stateAfter plainConfig failingRun) := ⟨by decide, by decide⟩
    have h := stuck_later plainConfig ["m"] _ u hinv hst hl
    have hk := h.stuck.inLoading "m" (by decide)
    exact ⟨stuck_counter_pos plainConfig ["m"] _ u hinv hst hl "m" (by decide) 0 (by decide),
      hk, fun hld => h.inv.disjoint "m" hld hk⟩

/-- C8 as stated fails: on the cyclic map, `loadModules("A")` returns its wait group like
any other call (there is no error result), and leaves the goroutines of `B` and `A` each
blocked on a wait group that is attached to the other module; none of them can enter
`finitModule`. -/
theorem cycle_request_returns_handle_and_deadlocks :
    (loadModules cyclicConfig ["A"] Registry.init).map Prod.fst = some 0 ∧
      (stateAfter cyclicConfig [Action.request ["A"]]).tasks
        = [{ mod := "B", depsWg := 2, phase := Phase.waiting },
           { mod := "A", depsWg := 1, phase := Phase.waiting }] ∧
      (stateAfter cyclicConfig [Action.request ["A"]]).loadingModules
        = [("A", [0, 2]), ("B", [1])] ∧
      (stateAfter cyclicConfig [Action.request ["A"]]).counter 0 = 1 ∧
      (stateAfter cyclicConfig [Action.request ["A"]]).counter 1 = 1 ∧
      (stateAfter cyclicConfig [Action.request ["A"]]).counter 2 = 1 ∧
      (taskBegin 0 (stateAfter cyclicConfig [Action.request ["A"]])).isNone = true ∧
      (taskBegin 1 (stateAfter cyclicConfig [Action.request ["A"]])).isNone = true := by
  decide

/-- C8, as the code has it: there is no cycle detection. After `loadModules("A")` on the
cyclic map from the empty registry, in every later state the returned wait group (number 0)
is unreleased, `A` and `B` are in `loadingModules` and not loaded, and `finitModule` has
been entered for neither. -/
theorem cycle_request_never_released (u : Registry)
    (hl : Later cyclicConfig (stateAfter cyclicConfig [Action.request ["A"]]) u) :
    0 < u.counter 0 ∧
      "A" ∈ keys u.loadingModules ∧ "B" ∈ keys u.loadingModules ∧
      "A" ∉ u.loadedModules ∧ "B" ∉ u.loadedModules ∧
      Event.began "A" ∉ u.log ∧ Event.began "B" ∉ u.log := by
  have hinv : Inv cyclicConfig (stateAfter cyclicConfig [Action.request ["A"]]) :=
    inv_reachable _ _ (reachable_stateAfter _ _ (by decide))
  have hst : Stuck ["A", "B"] (stateAfter cyclicConfig [Action.request ["A"]]) :=
    ⟨by decide, by decide⟩
  have h := stuck_later cyclicConfig ["A", "B"] _ u hinv hst hl
  have hA := h.stuck.inLoading "A" (by decide)
  have hB := h.stuck.inLoading "B" (by decide)
  refine ⟨stuck_counter_pos cyclicConfig ["A", "B"] _ u hinv hst hl "A" (by decide) 0
      (by decide), hA, hB, fun hld => h.inv.disjoint "A" hld hA,
    fun hld => h.inv.disjoint "B" hld hB, ?_, ?_⟩
  · intro hb
    have := h.began_old "A" (by decide) hb
    revert this
    decide
  · intro hb
    have := h.began_old "B" (by decide) hb
    revert this
    decide

/-- C8 as the code has it, after a further request for `B`: the first handle is still
unreleased and `finitModule("A")` was not entered. -/
theorem cycle_request_never_released_witness :
    0 < (stateAfter cyclicConfig [Action.request ["A"], Action.request ["B"]]).counter 0 ∧
      Event.began "A" ∉
        (stateAfter cyclicConfig [Action.request ["A"], Action.request ["B"]]).log :=
  ⟨(cycle_request_never_released _
      (later_stateAfter cyclicConfig [Action.request ["A"]] [Action.request ["B"]]
        (by decide))).1,
    (cycle_request_never_released _
      (later_stateAfter cyclicConfig [Action.request ["A"]] [Action.request ["B"]]
        (by decide))).2.2.2.2.2.1⟩

/-! ## Further properties of the registry -/

theorem mem_setPhase_self (ts : List Task) (i : Nat) (p : Phase) (x : Task)
    (h : ts[i]? = some x) : { x with phase := p } ∈ setPhase ts i p := by
  induction ts generalizing i with
  | nil => simp at h
  | cons a r ih =>
    cases i with
    | zero =>
      simp only [List.getElem?_cons_zero, Option.some.injEq] at h
      subst h
      simp [setPhase]
    | succ j =>
      simp only [List.getElem?_cons_succ] at h
      simp only [setPhase, List.mem_cons]
      exact Or.inr (ih j h)

theorem task_unique (ts : List Task) (m : String)
    (h : ts.countP (fun t => t.mod = m) ≤ 1) (x y : Task) (hx : x ∈ ts) (hy : y ∈ ts)
    (hxm : x.mod = m) (hym : y.mod = m) : x = y := by
  induction ts with
  | nil => simp at hx
  | cons a r ih =>
    have hpos : ∀ z ∈ r, z.mod = m → 0 < r.countP (fun t => t.mod = m) := fun z hz hzm =>
      List.countP_pos_iff.mpr ⟨z, hz, by simpa using hzm⟩
    simp only [List.countP_cons] at h
    simp only [List.mem_cons] at hx hy
    rcases hx with hx | hx <;> rcases hy with hy | hy
    · rw [hx, hy]
    · subst hx
      have := hpos y hy hym
      simp only [hxm, decide_True, if_true] at h
      omega
    · subst hy
      have := hpos x hx hxm
      simp only [hym, decide_True, if_true] at h
      omega
    · exact ih (by omega) hx hy

/-- Every goroutine that has not run its completion section has its module in
`loadingModules`. -/
theorem unfinished_in_loading (cfg : InitConfig) (s : Registry) (hs : Reachable cfg s) :
    ∀ t ∈ s.tasks, t.phase ≠ Phase.finished → t.mod ∈ keys s.loadingModules := by
  have h := later_induct cfg
    (fun u => Inv cfg u ∧
      ∀ t ∈ u.tasks, t.phase ≠ Phase.finished → t.mod ∈ keys u.loadingModules)
    ?_ Registry.init s hs ⟨inv_init cfg, fun t ht => by simp [Registry.init] at ht⟩
  · exact h.2
  · intro a u v hstep hu
    refine ⟨inv_step cfg a u v hstep hu.1, ?_⟩
    have hinv := inv_step cfg a u v hstep hu.1
    cases a with
    | request mods =>
      simp only [step, Option.map_eq_some'] at hstep
      obtain ⟨⟨wg, v1⟩, h1, h2⟩ := hstep
      simp only at h2
      subst h2
      obtain ⟨_, g, _⟩ := inv_loadModules cfg mods u v1 wg h1 hu.1
      intro t ht hp
      rcases g.tasks_new t ht with h3 | ⟨_, h4, _⟩
      · exact g.keys_mono _ (hu.2 t h3 hp)
      · have hc : 0 < v1.tasks.countP (fun y => y.mod = t.mod) :=
          List.countP_pos_iff.mpr ⟨t, ht, by simp⟩
        rw [hinv.tasksLog] at hc
        rcases hinv.spawnedKnown t.mod (List.count_pos_iff.mp hc) with h5 | h5
        · exact absurd (g.loaded_eq ▸ h5) h4
        · exact h5
    | begin i =>
      obtain ⟨x, hx, hph, _, rfl⟩ := taskBegin_eq i u v hstep
      intro t ht hp
      rcases mem_setPhase _ _ _ _ ht with h1 | ⟨z, hz, h2⟩
      · exact hu.2 t h1 hp
      · subst h2
        exact hu.2 z (mem_of_get? _ _ _ hz) (by
          have : z = x := by rw [hx] at hz; exact (Option.some.inj hz).symm
          rw [this, hph]; decide)
    | finit i ok =>
      obtain ⟨x, hx, hph, rfl⟩ := taskFinit_eq i ok u v hstep
      intro t ht hp
      rcases mem_setPhase _ _ _ _ ht with h1 | ⟨z, hz, h2⟩
      · exact hu.2 t h1 hp
      · subst h2
        exact hu.2 z (mem_of_get? _ _ _ hz) (by
          have : z = x := by rw [hx] at hz; exact (Option.some.inj hz).symm
          rw [this, hph]; decide)
    | complete i =>
      obtain ⟨x, hx, hph, rfl⟩ := taskComplete_eq i u v hstep
      intro t ht hp
      have huniq : (setPhase u.tasks i Phase.finished).countP (fun y => y.mod = x.mod) ≤ 1 := by
        rw [countP_mod_setPhase, hu.1.tasksLog]
        exact hu.1.spawnedOnce _
      have hself := mem_setPhase_self u.tasks i Phase.finished x hx
      have hne : t.mod ≠ x.mod := by
        intro hm
        have := task_unique _ x.mod huniq t _ ht hself hm rfl
        rw [this] at hp
        exact hp rfl
      refine (mem_keys_deleteEntry _ _ _).mpr ⟨hne, ?_⟩
      rcases mem_setPhase _ _ _ _ ht with h1 | ⟨z, hz, h2⟩
      · exact hu.2 t h1 hp
      · subst h2
        have : z = x := by rw [hx] at hz; exact (Option.some.inj hz).symm
        subst this
        exact absurd rfl hne

theorem not_began_of_ordered (cfg : InitConfig) (M : String) (hM : Prereq cfg M M)
    (log : List Event) (h : Ordered cfg log) : Event.began M ∉ log := by
  induction log with
  | nil => simp
  | cons e r ih =>
    have hr : Ordered cfg r := by
      intro post pre K hsplit P hP
      exact h (e :: post) pre K (by simp [hsplit]) P hP
    intro hmem
    simp only [List.mem_cons] at hmem
    rcases hmem with hmem | hmem
    · exact ih hr (h [] r M (by simp [hmem]) M hM).1
    · exact ih hr hmem

/-- The counter of every wait group is the number of its attachments in `loadingModules`:
no `Done` ever drives a counter below zero (Go's negative-counter panic cannot occur). -/
theorem counter_counts_attachments (cfg : InitConfig) (s : Registry)
    (hs : Reachable cfg s) (w : WgId) :
    s.counter w = (occ w s.loadingModules : Int) ∧ 0 ≤ s.counter w := by
  have h := (inv_reachable cfg s hs).counter_eq w
  exact ⟨h, by omega⟩

/-- The counters after the request on the cyclic map count the attachments. -/
theorem counter_counts_attachments_witness :
    (stateAfter cyclicConfig [Action.request ["A"]]).counter 2
      = (occ 2 (stateAfter cyclicConfig [Action.request ["A"]]).loadingModules : Int) :=
  (counter_counts_attachments cyclicConfig (stateAfter cyclicConfig [Action.request ["A"]])
    (reachable_stateAfter _ _ (by decide)) 2).1

/-- A failed load hangs for good: if in a reachable state the goroutine of a module has
returned after a `finitModule` error, then in every later state the module is still in
`loadingModules` and not loaded, and every wait group attached to it is still unreleased. -/
theorem failed_load_never_releases (cfg : InitConfig) (s u : Registry) (i : Nat) (x : Task)
    (hs : Reachable cfg s) (hx : s.tasks[i]? = some x) (hf : x.phase = Phase.failed)
    (hl : Later cfg s u) :
    x.mod ∈ keys u.loadingModules ∧ x.mod ∉ u.loadedModules ∧
      ∀ w ∈ waiters s.loadingModules x.mod, 0 < u.counter w := by
  have hinv := inv_reachable cfg s hs
  have hxmem : x ∈ s.tasks := mem_of_get? _ _ _ hx
  have huniq : s.tasks.countP (fun y => y.mod = x.mod) ≤ 1 := by
    rw [hinv.tasksLog]; exact hinv.spawnedOnce _
  have hst : Stuck [x.mod] s :=
    { inLoading := fun m hm => by
        simp only [List.mem_singleton] at hm
        subst hm
        exact unfinished_in_loading cfg s hs x hxmem (by rw [hf]; decide)
      blocked := fun y hy hS => by
        simp only [List.mem_singleton] at hS
        have := task_unique _ x.mod huniq y x hy hxmem hS rfl
        rw [this]
        exact Or.inl hf }
  have h := stuck_later cfg [x.mod] s u hinv hst hl
  have hk := h.stuck.inLoading x.mod (by simp)
  exact ⟨hk, fun hld => h.inv.disjoint _ hld hk,
    fun w hw => stuck_counter_pos cfg [x.mod] s u hinv hst hl x.mod (by simp) w hw⟩

/-- After the failing run, a second request for `m` is made: the first handle (wait group
0) is still unreleased. -/
theorem failed_load_never_releases_witness :
    0 < (stateAfter plainConfig (failingRun ++ [Action.request ["m"]])).counter 0 :=
  (failed_load_never_releases plainConfig (stateAfter plainConfig failingRun)
    (stateAfter plainConfig (failingRun ++ [Action.request ["m"]])) 0
    { mod := "m", depsWg := 1, phase := Phase.failed }
    (reachable_stateAfter _ _ (by decide)) (by decide) rfl
    (later_stateAfter plainConfig failingRun [Action.request ["m"]] (by decide))).2.2 0
    (by decide)

/-- A module on a dependency cycle is never inserted: if `M` is a transitive prerequisite
of itself, then in no reachable state `finitModule(M)` has been entered, and `M` is never
loaded. -/
theorem module_on_cycle_never_inserted (cfg : InitConfig) (s : Registry)
    (hs : Reachable cfg s) (M : String) (hM : Prereq cfg M M) :
    Event.began M ∉ s.log ∧ M ∉ s.loadedModules := by
  have hinv := inv_reachable cfg s hs
  have hb := not_began_of_ordered cfg M hM s.log hinv.ordered
  exact ⟨hb, fun hld => hb (hinv.loadedLog M hld).1⟩

/-- On the map `A: [B], B: [A]`, `A` is its own prerequisite and is never inserted. -/
theorem module_on_cycle_never_inserted_witness :
    Event.began "A" ∉ (stateAfter cyclicConfig [Action.request ["A"]]).log :=
  (module_on_cycle_never_inserted cyclicConfig (stateAfter cyclicConfig [Action.request ["A"]])
    (reachable_stateAfter _ _ (by decide)) "A"
    (Relation.TransGen.tail
      (Relation.TransGen.single (show "B" ∈ depsOf cyclicConfig "A" by decide))
      (show "A" ∈ depsOf cyclicConfig "B" by decide))).1

end Booster
